import Mathlib

/-!
# gateway-extension: the ingress reconciler

A shallow embedding of `pkg/controller/common.go` and `pkg/controller/controller.go`.

* Go structs are Lean structures with the Go field names; only the fields the
  controller reads or writes are kept (all other fields are copied unchanged by
  `DeepCopy` and never touched).
* A Go pointer field that may be nil is an `Option`.
* A Go `map[string]string` is an association list read with `List.lookup`.
* A Go function that can hit a nil dereference or an out-of-range index returns
  an `Option`; `none` is the run-time fault.
* The transforms run on `ingress.DeepCopy()`, so they are pure functions here.
-/

namespace GatewayExtension

/-! ## Data model -/

/-- Go `map[string]string`. -/
abbrev StrMap := List (String × String)

/-- Go `m[k]` in value position: the zero value `""` when the key is absent. -/
def StrMap.index (m : StrMap) (k : String) : String :=
  (m.lookup k).getD ""

/-- `corev1.ServicePort` (fields `Name`, `Port`). -/
structure ServicePort where
  Name : String
  Port : Int
deriving DecidableEq, Repr

/-- `corev1.ServiceSpec` (field `Ports`). -/
structure ServiceSpec where
  Ports : List ServicePort
deriving DecidableEq, Repr

/-- `corev1.Service`: the source object. -/
structure Service where
  Namespace : String
  Name : String
  Labels : StrMap
  Annotations : StrMap
  Spec : ServiceSpec
deriving DecidableEq, Repr

/-- `networkingv1.ServiceBackendPort`. -/
structure ServiceBackendPort where
  Name : String
  Number : Int
deriving DecidableEq, Repr

/-- `networkingv1.IngressServiceBackend`. -/
structure IngressServiceBackend where
  Name : String
  Port : ServiceBackendPort
deriving DecidableEq, Repr

/-- `networkingv1.IngressBackend`; `Service` is a pointer. -/
structure IngressBackend where
  Service : Option IngressServiceBackend
deriving DecidableEq, Repr

/-- `networkingv1.HTTPIngressPath`; `PathType` is a pointer. -/
structure HTTPIngressPath where
  Path : String
  PathType : Option String
  Backend : IngressBackend
deriving DecidableEq, Repr

/-- `networkingv1.HTTPIngressRuleValue`. -/
structure HTTPIngressRuleValue where
  Paths : List HTTPIngressPath
deriving DecidableEq, Repr

/-- `networkingv1.IngressRule`; the embedded `IngressRuleValue` has the single
pointer field `HTTP`. -/
structure IngressRule where
  Host : String
  HTTP : Option HTTPIngressRuleValue
deriving DecidableEq, Repr

/-- `networkingv1.IngressSpec` (field `Rules`). -/
structure IngressSpec where
  Rules : List IngressRule
deriving DecidableEq, Repr

/-- `networkingv1.Ingress`: the derived object. -/
structure Ingress where
  Name : String
  Namespace : String
  Annotations : StrMap
  Spec : IngressSpec
deriving DecidableEq, Repr

/-! ## Constants of `common.go` -/

def svcDomainAnnotationKey : String := "ingressDomain0"

def svcPathAnnotationKey : String := "ingressPath"

def validationExistAnnotation : List String :=
  [svcDomainAnnotationKey, svcPathAnnotationKey]

def ingressClassName : String := "apisix"

def ingressDomainAnnotationsKey : String := "symcn.gateway.extension/domain"

/-- Modelled from the spec: the constant `v1beta1.AnnotationIngressClass` of
k8s.io/api, the key of the routing-class marker annotation. -/
def AnnotationIngressClass : String := "kubernetes.io/ingress.class"

/-! ## Validation -/

/-- `strings.ReplaceAll(s, ".", "-")`: both strings are one ASCII character, so
the replacement is a map over the characters. -/
def replaceAllDotDash (s : String) : String :=
  ⟨s.data.map fun c => if c = '.' then '-' else c⟩

def getIngressName (svc : Service) : String :=
  replaceAllDotDash (svc.Annotations.index svcDomainAnnotationKey)

def getIngressHost (svc : Service) : String :=
  svc.Annotations.index svcDomainAnnotationKey

/-- `strings.HasPrefix(path, "/")` tests the first character. -/
def getIngressPath (svc : Service) : String :=
  let path := svc.Annotations.index svcPathAnnotationKey
  if path.data.head? = some '/' then path else "/" ++ path

/-- The character class `[a-z0-9]`. -/
def isLowerAlnum (c : Char) : Bool :=
  ('a'.toNat ≤ c.toNat && c.toNat ≤ 'z'.toNat) || ('0'.toNat ≤ c.toNat && c.toNat ≤ '9'.toNat)

/-- The character class `[-a-z0-9]`. -/
def isLabelChar (c : Char) : Bool :=
  c = '-' || isLowerAlnum c

/-- Modelled from the spec: a match of the whole string against the
expression `[a-z0-9]([-a-z0-9]*[a-z0-9])?` used by `validation.IsDNS1123Label`
of k8s.io/apimachinery. -/
def dns1123LabelMatch : List Char → Bool
  | [] => false
  | [c] => isLowerAlnum c
  | c :: d :: rest =>
    isLowerAlnum c && (d :: rest).all isLabelChar && isLowerAlnum ((d :: rest).getLast (by simp))

/-- Modelled from the spec: `validation.IsDNS1123Label` of k8s.io/apimachinery,
which is outside the repository. It returns the list of violations: one when
the value is longer than 63 bytes, one when it does not match the label
expression. -/
def IsDNS1123Label (value : String) : List String :=
  (if value.utf8ByteSize > 63 then ["must be no more than 63 characters"] else []) ++
  (if dns1123LabelMatch value.data then [] else ["a lowercase RFC 1123 label must consist of lower case alphanumeric characters or dashes, and must start and end with an alphanumeric character"])

def validationSvc (svc : Service) : Bool :=
  if svc.Annotations.length < 1 then false
  else if ¬ ( validationExistAnnotation.all fun k =>
      match svc.Annotations.lookup k with
      | some v => v ≠ ""
      | none => false) then false
  else if (IsDNS1123Label (getIngressName svc)).length > 0 then false
  else if svc.Spec.Ports.length < 1 then false
  else true

/-! ## Path merge engine -/

/-- Reads `svc.Spec.Ports[0]`: `none` when the port list is empty. -/
def getIngresssServiceBackend (svc : Service) : Option ServiceBackendPort :=
  match svc.Spec.Ports with
  | [] => none
  | p :: _ =>
    if p.Name = "" then some { Name := "", Number := p.Port }
    else some { Name := p.Name, Number := 0 }

def buildHTTPIngressPath (svc : Service) : Option HTTPIngressPath :=
  (getIngresssServiceBackend svc).map fun port =>
    { Path := getIngressPath svc
      PathType := some "Prefix"
      Backend := { Service := some { Name := svc.Name, Port := port } } }

def buildIngressRuleValue (svc : Service) : Option HTTPIngressRuleValue :=
  (buildHTTPIngressPath svc).map fun p => { Paths := [p] }

def buildNewIngressWithSvc (svc : Service) : Option Ingress :=
  (buildIngressRuleValue svc).map fun v =>
    { Name := getIngressName svc
      Namespace := svc.Namespace
      Annotations :=
        [(AnnotationIngressClass, ingressClassName), (ingressDomainAnnotationsKey, getIngressHost svc)]
      Spec := { Rules := [{ Host := getIngressHost svc, HTTP := some v }] } }

/-- The loop `for i := 0; i < len(path); i++ { if path[i].Backend.Service.Name == name ... }`
of `ingressAddPath` and `ingressRemovePath`, which stops at the first hit.
`none`: a nil `Service` pointer was dereferenced; `some none`: the loop ran to
the end; `some (some i)`: the first hit is at index `i`. -/
def scanServiceName (name : String) : List HTTPIngressPath → Option (Option Nat)
  | [] => some none
  | p :: ps =>
    match p.Backend.Service with
    | none => none
    | some sv =>
      if sv.Name = name then some (some 0)
      else (scanServiceName name ps).map (Option.map (· + 1))

/-- The assignment `ingress.Spec.Rules[0].HTTP.Paths = path`. -/
def setFirstRulePaths (ingress : Ingress) (rule : IngressRule) (rest : List IngressRule)
    (path : List HTTPIngressPath) : Ingress :=
  { ingress with Spec := { Rules := { rule with HTTP := some { Paths := path } } :: rest } }

def ingressAddPath (ingress : Ingress) (svc : Service) : Option Ingress :=
  match ingress.Spec.Rules with
  | [] =>
    (buildIngressRuleValue svc).map fun v =>
      { ingress with Spec := { Rules := [{ Host := getIngressHost svc, HTTP := some v }] } }
  | rule :: rest =>
    if rule.Host ≠ getIngressHost svc then some ingress
    else
      match rule.HTTP with
      | none => none
      | some http =>
        match scanServiceName svc.Name http.Paths with
        | none => none
        | some (some i) =>
          (buildHTTPIngressPath svc).map fun e =>
            setFirstRulePaths ingress rule rest (http.Paths.set i e)
        | some none =>
          (buildHTTPIngressPath svc).map fun e =>
            setFirstRulePaths ingress rule rest (http.Paths ++ [e])

def ingressRemovePath (ingress : Ingress) (svc : Service) : Option Ingress :=
  match ingress.Spec.Rules with
  | [] => some ingress
  | rule :: rest =>
    if rule.Host ≠ getIngressHost svc then some ingress
    else
      match rule.HTTP with
      | none => none
      | some http =>
        if http.Paths.length = 0 then some ingress
        else
          match scanServiceName svc.Name http.Paths with
          | none => none
          | some none => some ingress
          | some (some index) =>
            let path := http.Paths.take index ++ http.Paths.drop (index + 1)
            if path.length = 0 then some { ingress with Spec := { Rules := [] } }
            else some (setFirstRulePaths ingress rule rest path)

/-! ## Object-store client -/

/-- The error kinds the reconciler tells apart (`apierrors.IsNotFound`,
`apierrors.IsConflict`, anything else). -/
inductive StoreErr where
  | notFound
  | alreadyExists
  | conflict
  | other
deriving DecidableEq, Repr

/-- `types.NamespacedName`. -/
structure NamespacedName where
  Namespace : String
  Name : String
deriving DecidableEq, Repr

/-- A call received by the object-store client, with its argument. -/
inductive Call where
  | get (key : NamespacedName)
  | create (obj : Ingress)
  | update (obj : Ingress)
  | delete (obj : Ingress)
deriving DecidableEq, Repr

/-- The key under which the store holds an object. -/
def Ingress.key (obj : Ingress) : NamespacedName :=
  { Namespace := obj.Namespace, Name := obj.Name }

/-- Modelled from the spec: the object-store client `api.MingleClient` of
github.com/symcn/api, which is outside the repository. `objs` is the stored
state, `calls` the calls received so far, oldest first. `faults` scripts the
failures the store reports on its own account (a stale cache, a version
conflict, a transport error): every call consumes the head of the script, and
a head of `some e` makes that call fail with `e` and change nothing. -/
structure Client where
  objs : List Ingress
  faults : List (Option StoreErr)
  calls : List Call
deriving DecidableEq, Repr

/-- The failure scripted for the next call, if any. -/
def Client.nextFault (cli : Client) : Option StoreErr :=
  match cli.faults with
  | some e :: _ => some e
  | _ => none

/-- The stored object at a key. -/
def Client.find (cli : Client) (key : NamespacedName) : Option Ingress :=
  cli.objs.find? fun o => o.key = key

/-- The client after it received `call`: the script advances, the call is logged. -/
def Client.record (cli : Client) (call : Call) : Client :=
  { cli with faults := cli.faults.tail, calls := cli.calls ++ [call] }

/-- Modelled from the spec: `Get(key) → (object, err)`. -/
def Client.Get (cli : Client) (key : NamespacedName) : Except StoreErr Ingress × Client :=
  match cli.nextFault with
  | some e => (.error e, cli.record (.get key))
  | none =>
    match cli.find key with
    | some obj => (.ok obj, cli.record (.get key))
    | none => (.error .notFound, cli.record (.get key))

/-- Modelled from the spec: `Create(object) → err`. -/
def Client.Create (cli : Client) (obj : Ingress) : Option StoreErr × Client :=
  match cli.nextFault with
  | some e => (some e, cli.record (.create obj))
  | none =>
    match cli.find obj.key with
    | some _ => (some .alreadyExists, cli.record (.create obj))
    | none => (none, { cli.record (.create obj) with objs := cli.objs ++ [obj] })

/-- Modelled from the spec: `Update(object) → err`. -/
def Client.Update (cli : Client) (obj : Ingress) : Option StoreErr × Client :=
  match cli.nextFault with
  | some e => (some e, cli.record (.update obj))
  | none =>
    match cli.find obj.key with
    | none => (some .notFound, cli.record (.update obj))
    | some _ =>
      (none, { cli.record (.update obj) with
                objs := cli.objs.map fun o => if o.key = obj.key then obj else o })

/-- Modelled from the spec: `Delete(object) → err`. -/
def Client.Delete (cli : Client) (obj : Ingress) : Option StoreErr × Client :=
  match cli.nextFault with
  | some e => (some e, cli.record (.delete obj))
  | none =>
    match cli.find obj.key with
    | none => (some .notFound, cli.record (.delete obj))
    | some _ =>
      (none, { cli.record (.delete obj) with
                objs := cli.objs.filter fun o => o.key ≠ obj.key })

/-- A call that writes to the store. -/
def Call.isWrite : Call → Bool
  | .get _ => false
  | _ => true

/-! ## Reconciler (`controller.go`)

The methods return `none` when the merge engine faults, and otherwise the Go
`error` (`none` for `nil`) with the client after the call. -/

def AddFunc (cli : Client) (svc : Service) : Option (Option StoreErr × Client) :=
  match cli.Get { Name := getIngressName svc, Namespace := svc.Namespace } with
  | (.error err, cli1) =>
    if err ≠ .notFound then some (some err, cli1)
    else
      -- create ingress
      match buildNewIngressWithSvc svc with
      | none => none
      | some ingress => some (cli1.Create ingress)
  | (.ok ingress, cli1) =>
    -- update ingress
    match ingressAddPath ingress svc with
    | none => none
    | some newIngress =>
      if newIngress.Spec = ingress.Spec then some (none, cli1)
      else some (cli1.Update newIngress)

def UpdateFunc (cli : Client) (oldSvc newSvc : Service) : Option (Option StoreErr × Client) :=
  if oldSvc.Labels.index svcDomainAnnotationKey ≠ newSvc.Labels.index svcDomainAnnotationKey then
    some (none, cli)
  else
    match cli.Get { Name := getIngressName newSvc, Namespace := newSvc.Namespace } with
    | (.error err, cli1) =>
      if err ≠ .notFound then some (some err, cli1)
      else
        -- create ingress
        match buildNewIngressWithSvc newSvc with
        | none => none
        | some ingress => some (cli1.Create ingress)
    | (.ok ingress, cli1) =>
      -- update ingress
      match (ingressRemovePath ingress oldSvc).bind fun removed => ingressAddPath removed newSvc with
      | none => none
      | some newIngress =>
        if newIngress.Spec = ingress.Spec then some (none, cli1)
        else some (cli1.Update newIngress)

def DeleteFunc (cli : Client) (svc : Service) : Option (Option StoreErr × Client) :=
  match cli.Get { Name := getIngressName svc, Namespace := svc.Namespace } with
  | (.error err, cli1) =>
    if err ≠ .notFound then some (some err, cli1)
    else some (none, cli1)
  | (.ok ingress, cli1) =>
    -- update ingress
    match ingressRemovePath ingress svc with
    | none => none
    | some newIngress =>
      if newIngress.Spec.Rules.length = 0 then some (cli1.Delete newIngress)
      else if newIngress.Spec = ingress.Spec then some (none, cli1)
      else some (cli1.Update newIngress)

/-! ## Event handlers (`New`) and the retry loop -/

/-- Modelled from the spec: `retry.DefaultBackoff.Steps` of k8s.io/client-go, the
fixed number of attempts of the retry policy. -/
def DefaultBackoffSteps : Nat := 4

/-- Modelled from the spec: `retry.OnError` of k8s.io/client-go, which is
outside the repository. It runs `fn` at most `steps` times: a success or an
error that is not retriable ends the loop with that result, a retriable error
is remembered and `fn` is run again on the state it left; when the steps are
used up the last remembered error is returned. The waiting between the runs
is not part of the model. -/
def OnError (retriable : StoreErr → Bool) (fn : Client → Option (Option StoreErr × Client)) :
    Nat → Option StoreErr → Client → Option (Option StoreErr × Client)
  | 0, lastErr, cli => some (lastErr, cli)
  | steps + 1, _, cli =>
    match fn cli with
    | none => none
    | some (none, cli1) => some (none, cli1)
    | some (some err, cli1) =>
      if retriable err then OnError retriable fn steps (some err) cli1
      else some (some err, cli1)

/-- Modelled from the spec: `retry.RetryOnConflict(retry.DefaultBackoff, fn)`,
that is `OnError` with `apierrors.IsConflict` as the retriable errors. -/
def RetryOnConflict (fn : Client → Option (Option StoreErr × Client)) (cli : Client) :
    Option (Option StoreErr × Client) :=
  OnError (fun err => err = .conflict) fn DefaultBackoffSteps none cli

/-- The object an event carries (`obj interface{}`): a `*corev1.Service` or a
value of another type. -/
inductive Object where
  | service (svc : Service)
  | other
deriving DecidableEq, Repr

def convertToSvc (obj : Object) : Option Service :=
  match obj with
  | .other => none
  | .service svc => if ¬ validationSvc svc then none else some svc

/-- The `AddFunc` closure registered by `New`; the error the retry loop
returns is dropped. `none` is a run-time fault of the merge engine. -/
def OnAdd (cli : Client) (obj : Object) : Option Client :=
  match convertToSvc obj with
  | none => some cli
  | some svc => (RetryOnConflict (fun c => AddFunc c svc) cli).map fun r => r.2

/-- The `UpdateFunc` closure registered by `New`. -/
def OnUpdate (cli : Client) (oldObj newObj : Object) : Option Client :=
  match convertToSvc oldObj with
  | none => some cli
  | some oldSvc =>
    match convertToSvc newObj with
    | none => some cli
    | some newSvc =>
      (RetryOnConflict (fun c => UpdateFunc c oldSvc newSvc) cli).map fun r => r.2

/-- The `DeleteFunc` closure registered by `New`. -/
def OnDelete (cli : Client) (obj : Object) : Option Client :=
  match convertToSvc obj with
  | none => some cli
  | some svc => (RetryOnConflict (fun c => DeleteFunc c svc) cli).map fun r => r.2

/-! ## Vocabulary of the specification -/

/-- The entry routes to the source object `name` (`backendName = name`). -/
def isNamed (name : String) (p : HTTPIngressPath) : Bool :=
  match p.Backend.Service with
  | some sv => sv.Name = name
  | none => false

/-- The entry routes to a source object other than `name`. -/
def isOther (name : String) (p : HTTPIngressPath) : Bool :=
  match p.Backend.Service with
  | some sv => sv.Name ≠ name
  | none => false

/-- Index `i` holds the first entry of `ps` that routes to `name`. -/
def firstEntryAt (name : String) (ps : List HTTPIngressPath) (i : Nat) : Bool :=
  (ps.take i).all (isOther name) &&
    match ps[i]? with
    | some p => isNamed name p
    | none => false

/-- A snapshot of the data model: every rule carries a path list and every
entry of it routes to a service. -/
def wellFormed (s : Ingress) : Bool :=
  s.Spec.Rules.all fun r =>
    match r.HTTP with
    | none => false
    | some http => http.Paths.all fun p => p.Backend.Service.isSome

/-- The path entry the specification builds from a descriptor: normalised
path, path type `Prefix`, the source name, and the first port by name when it
has one and by number otherwise. -/
def entryOf (svc : Service) (port : ServicePort) : HTTPIngressPath :=
  { Path := getIngressPath svc
    PathType := some "Prefix"
    Backend :=
      { Service := some
          { Name := svc.Name
            Port := if port.Name = "" then { Name := "", Number := port.Port }
                    else { Name := port.Name, Number := 0 } } } }

/-- A DNS-1123 label in the words of the specification: 1 to 63 characters,
only lowercase alphanumerics and `-`, beginning and ending with an
alphanumeric. -/
def isDNS1123LabelSpec (s : String) : Bool :=
  decide (1 ≤ s.length ∧ s.length ≤ 63) &&
  s.data.all (fun c => isLowerAlnum c || c = '-') &&
  (match s.data.head? with
    | some c => isLowerAlnum c
    | none => false) &&
  (match s.data.getLast? with
    | some c => isLowerAlnum c
    | none => false)

/-- The object's first rule carries at least one path entry. -/
def hasEntry (s : Ingress) : Bool :=
  match s.Spec.Rules with
  | [] => false
  | rule :: _ =>
    match rule.HTTP with
    | none => false
    | some http => !http.Paths.isEmpty

/-- The `backendName` of an entry, if its backend is a service. -/
def backendName (p : HTTPIngressPath) : Option String :=
  p.Backend.Service.map fun sv => sv.Name

/-- The `backendName` values of the entries of the first rule, in order. -/
def backendNames (s : Ingress) : List (Option String) :=
  match s.Spec.Rules with
  | [] => []
  | rule :: _ =>
    match rule.HTTP with
    | none => []
    | some http => http.Paths.map backendName

/-- The invariant of the data model: every rule carries a path list of entries
routing to services, there is at most one rule, and the `backendName` values
of its entries are pairwise distinct. -/
def dataInvariant (s : Ingress) : Bool :=
  wellFormed s && decide (s.Spec.Rules.length ≤ 1) && decide (backendNames s).Nodup

/-- A `Create` or `Update` call carries an object with at least one entry. -/
def Call.writesEntry : Call → Bool
  | .create obj => hasEntry obj
  | .update obj => hasEntry obj
  | _ => true

/-- The `backendName` values of the entries of the first rule that have one, in
order. -/
def serviceNames (s : Ingress) : List String :=
  match s.Spec.Rules with
  | [] => []
  | rule :: _ =>
    match rule.HTTP with
    | none => []
    | some http => http.Paths.filterMap backendName

/-- The invariant as the data model states it: at most one rule, and pairwise
distinct `backendName` values in its entry list. -/
def statedInvariant (s : Ingress) : Bool :=
  decide (s.Spec.Rules.length ≤ 1) && decide (serviceNames s).Nodup

/-- What a run that takes the client from `cli` to `cli1` wrote: the calls
`cli1` logged after those of `cli` pass only objects with at least one entry
to `Create` and `Update`, and every object `cli1` stores was already stored
by `cli` or has at least one entry. -/
def writesOnlyEntries (cli cli1 : Client) : Prop :=
  (∃ new, cli1.calls = cli.calls ++ new ∧ new.all Call.writesEntry = true) ∧
    ∀ x ∈ cli1.objs, x ∈ cli.objs ∨ hasEntry x = true

/-- A run that takes the client from `cli` to `cli1` only read: the stored
objects are the same and the calls logged after those of `cli` hold no
`Create`, `Update` or `Delete`. -/
def readsOnly (cli cli1 : Client) : Prop :=
  cli1.objs = cli.objs ∧
    ∃ reads, cli1.calls = cli.calls ++ reads ∧ (reads.all fun c => !c.isWrite) = true

/-- The store states reachable from the empty store by runs of the three
procedures on validated source objects, whatever they return and whatever
failures the store scripts. -/
inductive Reachable : Client → Prop where
  | empty (faults : List (Option StoreErr)) :
      Reachable { objs := [], faults := faults, calls := [] }
  | script (cli : Client) (faults : List (Option StoreErr)) :
      Reachable cli → Reachable { cli with faults := faults }
  | add (cli cli1 : Client) (svc : Service) (err : Option StoreErr) :
      Reachable cli → validationSvc svc = true → AddFunc cli svc = some (err, cli1) →
      Reachable cli1
  | update (cli cli1 : Client) (oldSvc newSvc : Service) (err : Option StoreErr) :
      Reachable cli → validationSvc oldSvc = true → validationSvc newSvc = true →
      UpdateFunc cli oldSvc newSvc = some (err, cli1) → Reachable cli1
  | delete (cli cli1 : Client) (svc : Service) (err : Option StoreErr) :
      Reachable cli → validationSvc svc = true → DeleteFunc cli svc = some (err, cli1) →
      Reachable cli1

/-! ## Concrete objects used by the examples -/

/-- Source A of the scenarios: host `foo.bar.com`, path `api`, port `http`/8080. -/
def svcA : Service :=
  { Namespace := "default", Name := "A", Labels := []
    Annotations := [("ingressDomain0", "foo.bar.com"), ("ingressPath", "api")]
    Spec := { Ports := [{ Name := "http", Port := 8080 }] } }

/-- Source B of the scenarios: same host, path `v2`, unnamed port 9090. -/
def svcB : Service :=
  { Namespace := "default", Name := "B", Labels := []
    Annotations := [("ingressDomain0", "foo.bar.com"), ("ingressPath", "v2")]
    Spec := { Ports := [{ Name := "", Port := 9090 }] } }

/-- Source A after its path annotation changed from `api` to `apiv1`. -/
def svcA1 : Service :=
  { svcA with Annotations := [("ingressDomain0", "foo.bar.com"), ("ingressPath", "apiv1")] }

/-- Source A after its domain annotation changed to `baz.bar.com`. -/
def svcA2 : Service :=
  { svcA with Annotations := [("ingressDomain0", "baz.bar.com"), ("ingressPath", "api")] }

/-- The entry `/api → A:http`. -/
def entryA : HTTPIngressPath :=
  { Path := "/api", PathType := some "Prefix"
    Backend := { Service := some { Name := "A", Port := { Name := "http", Number := 0 } } } }

/-- The entry `/apiv1 → A:http`. -/
def entryA1 : HTTPIngressPath :=
  { Path := "/apiv1", PathType := some "Prefix"
    Backend := { Service := some { Name := "A", Port := { Name := "http", Number := 0 } } } }

/-- The entry `/v2 → B:9090`. -/
def entryB : HTTPIngressPath :=
  { Path := "/v2", PathType := some "Prefix"
    Backend := { Service := some { Name := "B", Port := { Name := "", Number := 9090 } } } }

/-- The derived object `default/foo-bar-com` holding the given entries. -/
def ingressFoo (paths : List HTTPIngressPath) : Ingress :=
  { Name := "foo-bar-com", Namespace := "default"
    Annotations := [("kubernetes.io/ingress.class", "apisix"),
      ("symcn.gateway.extension/domain", "foo.bar.com")]
    Spec := { Rules := [{ Host := "foo.bar.com", HTTP := some { Paths := paths } }] } }

/-- The derived object `default/foo-bar-com` without any rule. -/
def ingressNoRule : Ingress :=
  { Name := "foo-bar-com", Namespace := "default"
    Annotations := [("kubernetes.io/ingress.class", "apisix"),
      ("symcn.gateway.extension/domain", "foo.bar.com")]
    Spec := { Rules := [] } }

/-- The derived object `default/baz-bar-com` holding the given entries. -/
def ingressBaz (paths : List HTTPIngressPath) : Ingress :=
  { Name := "baz-bar-com", Namespace := "default"
    Annotations := [("kubernetes.io/ingress.class", "apisix"),
      ("symcn.gateway.extension/domain", "baz.bar.com")]
    Spec := { Rules := [{ Host := "baz.bar.com", HTTP := some { Paths := paths } }] } }

/-- A source whose host `a-b` shares the derived name `a-b` with the host `a.b`. -/
def svcDash : Service :=
  { Namespace := "default", Name := "C", Labels := []
    Annotations := [("ingressDomain0", "a-b"), ("ingressPath", "c")]
    Spec := { Ports := [{ Name := "http", Port := 8080 }] } }

/-- The derived object `default/a-b` of the host `a.b`, holding A's entry. -/
def ingressDot : Ingress :=
  { Name := "a-b", Namespace := "default"
    Annotations := [("kubernetes.io/ingress.class", "apisix"),
      ("symcn.gateway.extension/domain", "a.b")]
    Spec := { Rules := [{ Host := "a.b", HTTP := some { Paths := [entryA] } }] } }

/-- A source object the validator rejects: it has no port. -/
def svcNoPort : Service :=
  { svcA with Spec := { Ports := [] } }

/-- An entry whose backend is not a service (a resource backend). -/
def entryResource : HTTPIngressPath :=
  { Path := "/static", PathType := some "Prefix", Backend := { Service := none } }

/-- The derived object `default/foo-bar-com` whose rule carries no path list
(`HTTP` is nil). -/
def ingressNoPaths : Ingress :=
  { Name := "foo-bar-com", Namespace := "default"
    Annotations := [("kubernetes.io/ingress.class", "apisix"),
      ("symcn.gateway.extension/domain", "foo.bar.com")]
    Spec := { Rules := [{ Host := "foo.bar.com", HTTP := none }] } }

/-- A store holding the given objects, with no scripted failure and no call yet. -/
def storeOf (objs : List Ingress) : Client :=
  { objs := objs, faults := [], calls := [] }

/-! ## Lemmas on the scan loop -/

theorem isOther_service {name : String} {p : HTTPIngressPath} (h : isOther name p = true) :
    ∃ sv, p.Backend.Service = some sv ∧ sv.Name ≠ name := by
  unfold isOther at h
  split at h
  · rename_i sv hsv
    exact ⟨sv, hsv, by simpa using h⟩
  · simp at h

theorem isNamed_service {name : String} {p : HTTPIngressPath} (h : isNamed name p = true) :
    ∃ sv, p.Backend.Service = some sv ∧ sv.Name = name := by
  unfold isNamed at h
  split at h
  · rename_i sv hsv
    exact ⟨sv, hsv, by simpa using h⟩
  · simp at h

theorem scan_cons_other {name : String} {p : HTTPIngressPath} (ps : List HTTPIngressPath)
    (h : isOther name p = true) :
    scanServiceName name (p :: ps) = (scanServiceName name ps).map (Option.map (· + 1)) := by
  obtain ⟨sv, hsv, hne⟩ := isOther_service h
  simp [scanServiceName, hsv, hne]

theorem scan_cons_named {name : String} {p : HTTPIngressPath} (ps : List HTTPIngressPath)
    (h : isNamed name p = true) :
    scanServiceName name (p :: ps) = some (some 0) := by
  obtain ⟨sv, hsv, he⟩ := isNamed_service h
  simp [scanServiceName, hsv, he]

theorem scan_of_firstEntryAt {name : String} :
    ∀ (ps : List HTTPIngressPath) (i : Nat), firstEntryAt name ps i = true →
      scanServiceName name ps = some (some i)
  | [], i, h => by simp [firstEntryAt] at h
  | p :: ps, 0, h => by
    simp [firstEntryAt] at h
    exact scan_cons_named ps h
  | p :: ps, i + 1, h => by
    simp only [firstEntryAt, List.take_succ_cons, List.all_cons, Bool.and_eq_true,
      List.getElem?_cons_succ] at h
    have hi : firstEntryAt name ps i = true := by
      simp only [firstEntryAt, Bool.and_eq_true]
      exact ⟨h.1.2, h.2⟩
    rw [scan_cons_other ps h.1.1, scan_of_firstEntryAt ps i hi]
    rfl

theorem scan_of_all_other {name : String} :
    ∀ (ps : List HTTPIngressPath), ps.all (isOther name) = true →
      scanServiceName name ps = some none
  | [], _ => rfl
  | p :: ps, h => by
    simp only [List.all_cons, Bool.and_eq_true] at h
    rw [scan_cons_other ps h.1, scan_of_all_other ps h.2]
    rfl

theorem firstEntryAt_of_scan {name : String} :
    ∀ (ps : List HTTPIngressPath) (i : Nat), scanServiceName name ps = some (some i) →
      firstEntryAt name ps i = true
  | [], i, h => by simp [scanServiceName] at h
  | p :: ps, i, h => by
    unfold scanServiceName at h
    split at h
    · simp at h
    · rename_i sv hsv
      by_cases hn : sv.Name = name
      · simp [hn] at h
        subst h
        simp [firstEntryAt, isNamed, hsv, hn]
      · simp only [hn, if_false] at h
        cases hr : scanServiceName name ps with
        | none => simp [hr] at h
        | some r =>
          cases r with
          | none => simp [hr] at h
          | some k =>
            simp [hr] at h
            subst h
            have ih := firstEntryAt_of_scan ps k hr
            simp only [firstEntryAt, Bool.and_eq_true] at ih
            simp [firstEntryAt, isOther, hsv, hn, ih.1, ih.2]

theorem all_other_of_scan {name : String} :
    ∀ (ps : List HTTPIngressPath), scanServiceName name ps = some none →
      ps.all (isOther name) = true
  | [], _ => rfl
  | p :: ps, h => by
    unfold scanServiceName at h
    split at h
    · simp at h
    · rename_i sv hsv
      by_cases hn : sv.Name = name
      · simp [hn] at h
      · simp only [hn, if_false] at h
        cases hr : scanServiceName name ps with
        | none => simp [hr] at h
        | some r =>
          cases r with
          | some k => simp [hr] at h
          | none =>
            have ih := all_other_of_scan ps hr
            simp [isOther, hsv, hn, ih]

theorem firstEntryAt_lt {name : String} {ps : List HTTPIngressPath} {i : Nat}
    (h : firstEntryAt name ps i = true) : i < ps.length := by
  simp only [firstEntryAt, Bool.and_eq_true] at h
  by_contra hlt
  have : ps[i]? = none := List.getElem?_eq_none (by omega)
  rw [this] at h
  simp at h

theorem scan_total (name : String) :
    ∀ (ps : List HTTPIngressPath), (ps.all fun p => p.Backend.Service.isSome) = true →
      scanServiceName name ps ≠ none
  | [], _ => by simp [scanServiceName]
  | p :: ps, h => by
    simp only [List.all_cons, Bool.and_eq_true] at h
    have ih := scan_total name ps h.2
    unfold scanServiceName
    cases hsv : p.Backend.Service with
    | none => simp [hsv] at h
    | some sv =>
      simp only
      split
      · simp
      · cases hr : scanServiceName name ps with
        | none => exact absurd hr ih
        | some r => simp

/-! ## Lemmas on building an entry -/

theorem ports_of_valid {svc : Service} (h : validationSvc svc = true) :
    ∃ port ports, svc.Spec.Ports = port :: ports := by
  unfold validationSvc at h
  split at h
  · simp at h
  · split at h
    · simp at h
    · split at h
      · simp at h
      · split at h
        · simp at h
        · rename_i hp
          cases hl : svc.Spec.Ports with
          | nil => simp [hl] at hp
          | cons port ports => exact ⟨port, ports, rfl⟩

theorem build_of_ports {svc : Service} {port : ServicePort} {ports : List ServicePort}
    (h : svc.Spec.Ports = port :: ports) :
    buildHTTPIngressPath svc = some (entryOf svc port) := by
  unfold buildHTTPIngressPath getIngresssServiceBackend entryOf
  rw [h]
  by_cases hn : port.Name = "" <;> simp [hn]

theorem isNamed_entryOf (svc : Service) (port : ServicePort) :
    isNamed svc.Name (entryOf svc port) = true := by
  simp [isNamed, entryOf]

theorem isNamed_of_build {svc : Service} {e : HTTPIngressPath}
    (h : buildHTTPIngressPath svc = some e) : isNamed svc.Name e = true := by
  unfold buildHTTPIngressPath at h
  cases hb : getIngresssServiceBackend svc with
  | none => simp [hb] at h
  | some port =>
    simp [hb] at h
    subst h
    simp [isNamed]

theorem firstEntryAt_set {name : String} {ps : List HTTPIngressPath} {i : Nat}
    {e : HTTPIngressPath} (h : firstEntryAt name ps i = true) (he : isNamed name e = true) :
    firstEntryAt name (ps.set i e) i = true := by
  have hlt := firstEntryAt_lt h
  simp only [firstEntryAt, Bool.and_eq_true] at h ⊢
  refine ⟨?_, ?_⟩
  · have ht : (ps.set i e).take i = ps.take i := by
      rw [List.set_take]
      exact List.set_eq_of_length_le (by simp)
    rw [ht]
    exact h.1
  · simp [hlt, he]

theorem firstEntryAt_append {name : String} {ps : List HTTPIngressPath}
    {e : HTTPIngressPath} (h : ps.all (isOther name) = true) (he : isNamed name e = true) :
    firstEntryAt name (ps ++ [e]) ps.length = true := by
  simp only [firstEntryAt, Bool.and_eq_true]
  refine ⟨?_, ?_⟩
  · simpa using h
  · simp [he]

/-! ## Case analysis of `ingressAddPath` and `ingressRemovePath` -/

theorem addPath_no_rule {s : Ingress} {d : Service} {e : HTTPIngressPath}
    (hr : s.Spec.Rules = []) (he : buildHTTPIngressPath d = some e) :
    ingressAddPath s d =
      some { s with Spec := { Rules := [{ Host := getIngressHost d, HTTP := some { Paths := [e] } }] } } := by
  simp [ingressAddPath, hr, buildIngressRuleValue, he]

theorem addPath_other_host {s : Ingress} {d : Service} {rule : IngressRule}
    {rest : List IngressRule} (hr : s.Spec.Rules = rule :: rest)
    (hh : rule.Host ≠ getIngressHost d) : ingressAddPath s d = some s := by
  simp [ingressAddPath, hr, hh]

theorem addPath_found {s : Ingress} {d : Service} {rule : IngressRule}
    {rest : List IngressRule} {http : HTTPIngressRuleValue} {i : Nat} {e : HTTPIngressPath}
    (hr : s.Spec.Rules = rule :: rest) (hh : rule.Host = getIngressHost d)
    (hp : rule.HTTP = some http) (hi : firstEntryAt d.Name http.Paths i = true)
    (he : buildHTTPIngressPath d = some e) :
    ingressAddPath s d = some (setFirstRulePaths s rule rest (http.Paths.set i e)) := by
  simp [ingressAddPath, hr, hh, hp, scan_of_firstEntryAt _ _ hi, he]

theorem addPath_absent {s : Ingress} {d : Service} {rule : IngressRule}
    {rest : List IngressRule} {http : HTTPIngressRuleValue} {e : HTTPIngressPath}
    (hr : s.Spec.Rules = rule :: rest) (hh : rule.Host = getIngressHost d)
    (hp : rule.HTTP = some http) (hi : http.Paths.all (isOther d.Name) = true)
    (he : buildHTTPIngressPath d = some e) :
    ingressAddPath s d = some (setFirstRulePaths s rule rest (http.Paths ++ [e])) := by
  simp [ingressAddPath, hr, hh, hp, scan_of_all_other _ hi, he]

theorem removePath_no_rule {s : Ingress} {d : Service} (hr : s.Spec.Rules = []) :
    ingressRemovePath s d = some s := by
  simp [ingressRemovePath, hr]

theorem removePath_other_host {s : Ingress} {d : Service} {rule : IngressRule}
    {rest : List IngressRule} (hr : s.Spec.Rules = rule :: rest)
    (hh : rule.Host ≠ getIngressHost d) : ingressRemovePath s d = some s := by
  simp [ingressRemovePath, hr, hh]

theorem removePath_no_entry {s : Ingress} {d : Service} {rule : IngressRule}
    {rest : List IngressRule} {http : HTTPIngressRuleValue}
    (hr : s.Spec.Rules = rule :: rest) (hp : rule.HTTP = some http) (hl : http.Paths = []) :
    ingressRemovePath s d = some s := by
  by_cases hh : rule.Host = getIngressHost d <;> simp [ingressRemovePath, hr, hh, hp, hl]

theorem removePath_absent {s : Ingress} {d : Service} {rule : IngressRule}
    {rest : List IngressRule} {http : HTTPIngressRuleValue}
    (hr : s.Spec.Rules = rule :: rest) (hp : rule.HTTP = some http)
    (hi : http.Paths.all (isOther d.Name) = true) :
    ingressRemovePath s d = some s := by
  by_cases hh : rule.Host = getIngressHost d
  · by_cases hl : http.Paths.length = 0
    · simp [ingressRemovePath, hr, hh, hp, hl]
    · simp [ingressRemovePath, hr, hh, hp, hl, scan_of_all_other _ hi]
  · simp [ingressRemovePath, hr, hh]

theorem take_append_drop_succ (ps : List HTTPIngressPath) (i : Nat) :
    ps.take i ++ ps.drop (i + 1) = ps.eraseIdx i := by
  rw [List.eraseIdx_eq_take_drop_succ]

theorem removePath_found {s : Ingress} {d : Service} {rule : IngressRule}
    {rest : List IngressRule} {http : HTTPIngressRuleValue} {i : Nat}
    (hr : s.Spec.Rules = rule :: rest) (hh : rule.Host = getIngressHost d)
    (hp : rule.HTTP = some http) (hi : firstEntryAt d.Name http.Paths i = true) :
    ingressRemovePath s d =
      if http.Paths.length = 1 then some { s with Spec := { Rules := [] } }
      else some (setFirstRulePaths s rule rest (http.Paths.eraseIdx i)) := by
  have hlt := firstEntryAt_lt hi
  have hl : ¬ http.Paths.length = 0 := by omega
  have hlen : (http.Paths.eraseIdx i).length = http.Paths.length - 1 :=
    List.length_eraseIdx_of_lt hlt
  simp only [ingressRemovePath, hr, hh, hp, hl, scan_of_firstEntryAt _ _ hi,
    take_append_drop_succ, ne_eq, not_true_eq_false, if_false]
  by_cases h1 : http.Paths.length = 1
  · have : (http.Paths.eraseIdx i).length = 0 := by omega
    simp [h1, this]
  · have : ¬ (http.Paths.eraseIdx i).length = 0 := by omega
    simp [h1, this]

/-! ## Lemmas on well-formed snapshots -/

theorem wellFormed_cons {s : Ingress} {rule : IngressRule} {rest : List IngressRule}
    (hs : wellFormed s = true) (hr : s.Spec.Rules = rule :: rest) :
    ∃ http, rule.HTTP = some http ∧ (http.Paths.all fun p => p.Backend.Service.isSome) = true := by
  simp only [wellFormed, hr, List.all_cons, Bool.and_eq_true] at hs
  cases hp : rule.HTTP with
  | none => simp [hp] at hs
  | some http =>
    simp only [hp] at hs
    exact ⟨http, rfl, hs.1⟩

theorem isOther_of_not_named {name : String} {p : HTTPIngressPath}
    (hs : p.Backend.Service.isSome = true) (hn : isNamed name p = false) :
    isOther name p = true := by
  unfold isNamed at hn
  unfold isOther
  cases hsv : p.Backend.Service with
  | none => simp [hsv] at hs
  | some sv =>
    simp only [hsv] at hn ⊢
    simpa using hn

theorem not_named_of_isOther {name : String} {p : HTTPIngressPath}
    (h : isOther name p = true) : isNamed name p = false := by
  obtain ⟨sv, hsv, hne⟩ := isOther_service h
  simp [isNamed, hsv, hne]

theorem scan_cases {name : String} {ps : List HTTPIngressPath}
    (hs : (ps.all fun p => p.Backend.Service.isSome) = true) :
    ps.all (isOther name) = true ∨ ∃ i, firstEntryAt name ps i = true := by
  cases hr : scanServiceName name ps with
  | none => exact absurd hr (scan_total name ps hs)
  | some r =>
    cases r with
    | none => exact Or.inl (all_other_of_scan ps hr)
    | some i => exact Or.inr ⟨i, firstEntryAt_of_scan ps i hr⟩

/-! ## The claims on the path merge engine -/

/-- C4: for every descriptor the validator accepts and every derived object
without a rule, `ingressAddPath` followed by `ingressRemovePath` with the same
descriptor returns an object whose rule list is empty: the signal on which
`DeleteFunc` deletes the object. -/
theorem removePath_addPath_clears (s : Ingress) (d : Service)
    (hd : validationSvc d = true) (hs : s.Spec.Rules = []) :
    ∃ s1 s2, ingressAddPath s d = some s1 ∧ ingressRemovePath s1 d = some s2 ∧
      s2.Spec.Rules = [] := by
  obtain ⟨port, ports, hports⟩ := ports_of_valid hd
  have he := build_of_ports hports
  have hi : firstEntryAt d.Name [entryOf d port] 0 = true := by
    simp [firstEntryAt, isNamed_entryOf d port]
  refine ⟨_, _, addPath_no_rule hs he, removePath_found rfl rfl rfl hi, ?_⟩
  simp

/-- Witness of C4: source A added to and removed from an object without rule. -/
theorem removePath_addPath_clears_witness :
    validationSvc svcA = true ∧ ingressNoRule.Spec.Rules = [] ∧
      ∃ s1 s2, ingressAddPath ingressNoRule svcA = some s1 ∧
        ingressRemovePath s1 svcA = some s2 ∧ s2.Spec.Rules = [] :=
  ⟨by decide, rfl,
    removePath_addPath_clears ingressNoRule svcA (by decide) rfl⟩

/-- C5: replacement by `ingressAddPath` keeps the order. When the first rule has
the host of the descriptor and the first entry routing to the source sits at
index `i`, the result has an entry list of the same length in which index `i`
holds the entry built from the descriptor and every other index holds the
entry it held before; nothing else of the object changes. -/
theorem ingressAddPath_replaces_in_place (s : Ingress) (d : Service) (rule : IngressRule)
    (rest : List IngressRule) (http : HTTPIngressRuleValue) (i : Nat)
    (hd : validationSvc d = true) (hr : s.Spec.Rules = rule :: rest)
    (hh : rule.Host = getIngressHost d) (hp : rule.HTTP = some http)
    (hi : firstEntryAt d.Name http.Paths i = true) :
    ∃ port ports paths1, d.Spec.Ports = port :: ports ∧
      ingressAddPath s d =
        some { s with Spec := { Rules := { rule with HTTP := some { Paths := paths1 } } :: rest } } ∧
      paths1.length = http.Paths.length ∧
      paths1[i]? = some (entryOf d port) ∧
      ∀ j, j ≠ i → paths1[j]? = http.Paths[j]? := by
  obtain ⟨port, ports, hports⟩ := ports_of_valid hd
  have he := build_of_ports hports
  have hlt := firstEntryAt_lt hi
  refine ⟨port, ports, http.Paths.set i (entryOf d port), hports, addPath_found hr hh hp hi he,
    by simp, by simp [hlt], ?_⟩
  intro j hj
  exact List.getElem?_set_ne (Ne.symm hj)

/-- Witness of C5: source A with the path `apiv1` replaces A's entry at index 0
of the entries A, B. -/
theorem ingressAddPath_replaces_in_place_witness :
    validationSvc svcA1 = true ∧ firstEntryAt svcA1.Name [entryA, entryB] 0 = true ∧
      ∃ port ports paths1, svcA1.Spec.Ports = port :: ports ∧
        ingressAddPath (ingressFoo [entryA, entryB]) svcA1 =
          some { ingressFoo [entryA, entryB] with
            Spec := { Rules := [{ Host := "foo.bar.com", HTTP := some { Paths := paths1 } }] } } ∧
        paths1.length = 2 ∧
        paths1[0]? = some (entryOf svcA1 port) ∧
        ∀ j, j ≠ 0 → paths1[j]? = [entryA, entryB][j]? :=
  ⟨by decide, by decide,
    ingressAddPath_replaces_in_place (ingressFoo [entryA, entryB]) svcA1
      { Host := "foo.bar.com", HTTP := some { Paths := [entryA, entryB] } } []
      { Paths := [entryA, entryB] } 0 (by decide) rfl (by decide) rfl (by decide)⟩

/-- C6: append by `ingressAddPath`. When the first rule has the host of the
descriptor and every entry routes to another source, the result is the object
with the entry built from the descriptor (normalised path, path type `Prefix`,
the source name, the first port by name or else by number) added after the
existing entries, which stay as they are. -/
theorem ingressAddPath_appends (s : Ingress) (d : Service) (rule : IngressRule)
    (rest : List IngressRule) (http : HTTPIngressRuleValue)
    (hd : validationSvc d = true) (hr : s.Spec.Rules = rule :: rest)
    (hh : rule.Host = getIngressHost d) (hp : rule.HTTP = some http)
    (hi : http.Paths.all (isOther d.Name) = true) :
    ∃ port ports, d.Spec.Ports = port :: ports ∧
      ingressAddPath s d =
        some { s with Spec := { Rules :=
          { rule with HTTP := some { Paths := http.Paths ++ [entryOf d port] } } :: rest } } := by
  obtain ⟨port, ports, hports⟩ := ports_of_valid hd
  exact ⟨port, ports, hports, addPath_absent hr hh hp hi (build_of_ports hports)⟩

/-- Witness of C6: the entries `/api → A:http` plus source B (path `v2`,
unnamed port 9090) give `/api → A:http`, `/v2 → B:9090`. -/
theorem ingressAddPath_appends_witness :
    validationSvc svcB = true ∧ [entryA].all (isOther svcB.Name) = true ∧
      ingressAddPath (ingressFoo [entryA]) svcB = some (ingressFoo [entryA, entryB]) := by
  refine ⟨by decide, by decide, ?_⟩
  obtain ⟨port, ports, hports, h⟩ :=
    ingressAddPath_appends (ingressFoo [entryA]) svcB
      { Host := "foo.bar.com", HTTP := some { Paths := [entryA] } } []
      { Paths := [entryA] } (by decide) rfl (by decide) rfl (by decide)
  have hport : port = { Name := "", Port := 9090 } := by
    have h0 : svcB.Spec.Ports = [{ Name := "", Port := 9090 }] := rfl
    rw [h0] at hports
    exact (List.cons.inj hports).1.symm
  rw [h, hport]
  decide

/-- C7: removal by `ingressRemovePath`. When the first rule has the host of the
descriptor and the first entry routing to the source sits at index `i`, the
result has its rule list cleared when that entry was the only one, and
otherwise has the entry list with the element at index `i` deleted, the other
entries in their order; nothing else of the object changes. -/
theorem ingressRemovePath_removes (s : Ingress) (d : Service) (rule : IngressRule)
    (rest : List IngressRule) (http : HTTPIngressRuleValue) (i : Nat)
    (hr : s.Spec.Rules = rule :: rest) (hh : rule.Host = getIngressHost d)
    (hp : rule.HTTP = some http) (hi : firstEntryAt d.Name http.Paths i = true) :
    ingressRemovePath s d =
      if http.Paths.length = 1 then some { s with Spec := { Rules := [] } }
      else some { s with Spec := { Rules :=
        { rule with HTTP := some { Paths := http.Paths.eraseIdx i } } :: rest } } :=
  removePath_found hr hh hp hi

/-- Witness of C7: removing source A from the entries A, B leaves B. -/
theorem ingressRemovePath_removes_witness :
    firstEntryAt svcA.Name [entryA, entryB] 0 = true ∧
      ingressRemovePath (ingressFoo [entryA, entryB]) svcA = some (ingressFoo [entryB]) := by
  refine ⟨by decide, ?_⟩
  rw [ingressRemovePath_removes (ingressFoo [entryA, entryB]) svcA
      { Host := "foo.bar.com", HTTP := some { Paths := [entryA, entryB] } } []
      { Paths := [entryA, entryB] } 0 rfl (by decide) rfl (by decide)]
  decide

/-! ## Lemmas on the validator -/

theorem isLowerAlnum_ascii {c : Char} (h : isLowerAlnum c = true) : c.toNat ≤ 127 := by
  have hz : 'z'.toNat = 122 := rfl
  have h9 : '9'.toNat = 57 := rfl
  simp only [isLowerAlnum, Bool.or_eq_true, Bool.and_eq_true, decide_eq_true_eq, hz, h9] at h
  omega

theorem isLabelChar_ascii {c : Char} (h : isLabelChar c = true) : c.toNat ≤ 127 := by
  simp only [isLabelChar, Bool.or_eq_true, decide_eq_true_eq] at h
  rcases h with h | h
  · subst h
    decide
  · exact isLowerAlnum_ascii h

theorem utf8Size_of_ascii (c : Char) (h : c.toNat ≤ 127) : c.utf8Size = 1 := by
  unfold Char.utf8Size
  have h1 : c.val ≤ UInt32.ofNatCore 0x7F (by decide) := by
    rw [UInt32.le_def, BitVec.le_def]
    exact h
  simp only [h1, if_true]

theorem utf8ByteSize_of_ascii (cs : List Char) (h : ∀ c ∈ cs, c.toNat ≤ 127) :
    String.utf8ByteSize.go cs = cs.length := by
  induction cs with
  | nil => rfl
  | cons c cs ih =>
    simp only [String.utf8ByteSize.go, List.length_cons]
    rw [ih (fun x hx => h x (List.mem_cons_of_mem c hx)),
      utf8Size_of_ascii c (h c (List.mem_cons_self c cs))]

theorem isLabelChar_eq (c : Char) : isLabelChar c = (isLowerAlnum c || decide (c = '-')) := by
  simp only [isLabelChar]
  exact Bool.or_comm _ _

theorem dns1123LabelMatch_iff (cs : List Char) :
    dns1123LabelMatch cs = true ↔
      (cs.all (fun c => isLowerAlnum c || c = '-') = true ∧
        (match cs.head? with
          | some c => isLowerAlnum c
          | none => false) = true ∧
        (match cs.getLast? with
          | some c => isLowerAlnum c
          | none => false) = true) := by
  match cs with
  | [] => simp [dns1123LabelMatch]
  | [c] =>
    simp only [dns1123LabelMatch, List.all_cons, List.all_nil, Bool.and_true, List.head?_cons,
      List.getLast?_singleton, Bool.or_eq_true, decide_eq_true_eq]
    constructor
    · intro h
      exact ⟨Or.inl h, h, h⟩
    · intro h
      exact h.2.1
  | c :: d :: rest =>
    have hl : (c :: d :: rest).getLast? = some ((d :: rest).getLast (by simp)) := by
      rw [List.getLast?_cons_cons, List.getLast?_eq_getLast]
    have ha : (d :: rest).all isLabelChar =
        (d :: rest).all (fun c => isLowerAlnum c || decide (c = '-')) := by
      congr 1
      funext x
      exact isLabelChar_eq x
    rw [hl]
    simp only [dns1123LabelMatch, ha, List.head?_cons, Bool.and_eq_true]
    rw [@List.all_cons _ c, Bool.and_eq_true]
    constructor
    · rintro ⟨⟨h1, h2⟩, h3⟩
      exact ⟨⟨by simp [h1], h2⟩, h1, h3⟩
    · rintro ⟨⟨_, h2⟩, h1, h3⟩
      exact ⟨⟨h1, h2⟩, h3⟩

theorem IsDNS1123Label_nil_iff (v : String) :
    IsDNS1123Label v = [] ↔ isDNS1123LabelSpec v = true := by
  obtain ⟨cs⟩ := v
  have hsize : String.utf8ByteSize ⟨cs⟩ = String.utf8ByteSize.go cs := rfl
  have hlen : String.length ⟨cs⟩ = cs.length := rfl
  have hascii : cs.all (fun c => isLowerAlnum c || c = '-') = true →
      String.utf8ByteSize.go cs = cs.length := by
    intro h
    apply utf8ByteSize_of_ascii
    intro c hc
    have := List.all_eq_true.mp h c hc
    rw [← isLabelChar_eq] at this
    exact isLabelChar_ascii this
  have hne : (match cs.head? with
      | some c => isLowerAlnum c
      | none => false) = true → 1 ≤ cs.length := by
    intro h
    cases cs with
    | nil => simp at h
    | cons c cs => simp
  simp only [IsDNS1123Label, isDNS1123LabelSpec, hsize, hlen, List.append_eq_nil,
    Bool.and_eq_true, decide_eq_true_eq]
  constructor
  · rintro ⟨h1, h2⟩
    have hm : dns1123LabelMatch cs = true := by
      by_contra hc
      simp [hc] at h2
    obtain ⟨ha, hh, hl⟩ := (dns1123LabelMatch_iff cs).mp hm
    have hs := hascii ha
    have h63 : ¬ String.utf8ByteSize.go cs > 63 := by
      intro hc
      rw [if_pos hc] at h1
      exact List.cons_ne_nil _ _ h1
    exact ⟨⟨⟨⟨hne hh, by omega⟩, ha⟩, hh⟩, hl⟩
  · rintro ⟨⟨⟨⟨_, h63⟩, ha⟩, hh⟩, hl⟩
    have hs := hascii ha
    have hm := (dns1123LabelMatch_iff cs).mpr ⟨ha, hh, hl⟩
    constructor
    · have : ¬ String.utf8ByteSize.go cs > 63 := by omega
      rw [if_neg this]
    · simp [hm]

theorem lookup_nonempty_iff (m : StrMap) (k : String) :
    (match m.lookup k with
      | some v => decide (v ≠ "")
      | none => false) = true ↔ ∃ v, m.lookup k = some v ∧ v ≠ "" := by
  cases m.lookup k with
  | none => simp
  | some v => simp

/-! ## The claim on the validator -/

/-- C9: the validator accepts a source object if and only if its annotation map
is non-empty, the domain annotation and the path annotation are both present
and non-empty, the domain value with every `.` replaced by `-` is a DNS-1123
label (1 to 63 characters, only lowercase alphanumerics and `-`, beginning and
ending with an alphanumeric), and its port list is non-empty; every other
source object is rejected. -/
theorem validationSvc_iff (svc : Service) :
    validationSvc svc = true ↔
      (svc.Annotations ≠ [] ∧
        (∃ v, svc.Annotations.lookup "ingressDomain0" = some v ∧ v ≠ "") ∧
        (∃ v, svc.Annotations.lookup "ingressPath" = some v ∧ v ≠ "") ∧
        isDNS1123LabelSpec (replaceAllDotDash (svc.Annotations.index "ingressDomain0")) = true ∧
        svc.Spec.Ports ≠ []) := by
  have hA : svc.Annotations.length < 1 ↔ svc.Annotations = [] := by
    cases svc.Annotations <;> simp
  have hP : svc.Spec.Ports.length < 1 ↔ svc.Spec.Ports = [] := by
    cases svc.Spec.Ports <;> simp
  have hL : (IsDNS1123Label (getIngressName svc)).length > 0 ↔
      ¬ isDNS1123LabelSpec (getIngressName svc) = true := by
    rw [← IsDNS1123Label_nil_iff]
    cases IsDNS1123Label (getIngressName svc) <;> simp
  have hK : ( validationExistAnnotation.all fun k =>
      match svc.Annotations.lookup k with
      | some v => decide (v ≠ "")
      | none => false) = true ↔
      ((∃ v, svc.Annotations.lookup "ingressDomain0" = some v ∧ v ≠ "") ∧
        (∃ v, svc.Annotations.lookup "ingressPath" = some v ∧ v ≠ "")) := by
    simp only [ validationExistAnnotation, svcDomainAnnotationKey, svcPathAnnotationKey,
      List.all_cons, List.all_nil, Bool.and_true, Bool.and_eq_true, lookup_nonempty_iff]
  have hN : getIngressName svc = replaceAllDotDash (svc.Annotations.index "ingressDomain0") := rfl
  unfold validationSvc
  rw [← hN]
  by_cases h1 : svc.Annotations.length < 1
  · simp [h1, hA.mp h1]
  · have h1n : svc.Annotations ≠ [] := fun h => h1 (hA.mpr h)
    simp only [h1, if_false, h1n, ne_eq, not_false_eq_true, true_and]
    by_cases h2 : ( validationExistAnnotation.all fun k =>
        match svc.Annotations.lookup k with
        | some v => decide (v ≠ "")
        | none => false) = true
    · have h2p := hK.mp h2
      simp only [h2, not_true_eq_false, if_false]
      by_cases h3 : (IsDNS1123Label (getIngressName svc)).length > 0
      · have h3n := hL.mp h3
        simp [h3, h3n]
      · have h3n : isDNS1123LabelSpec (getIngressName svc) = true := by
          by_contra hc
          exact h3 (hL.mpr hc)
        simp only [h3, if_false, h3n, true_and]
        by_cases h4 : svc.Spec.Ports.length < 1
        · simp [h4, hP.mp h4]
        · have h4n : svc.Spec.Ports ≠ [] := fun h => h4 (hP.mpr h)
          simp only [h4, if_false, true_iff]
          exact ⟨h2p.1, h2p.2, h4n⟩
    · have h2n : ¬ ((∃ v, svc.Annotations.lookup "ingressDomain0" = some v ∧ v ≠ "") ∧
          (∃ v, svc.Annotations.lookup "ingressPath" = some v ∧ v ≠ "")) := fun h => h2 (hK.mpr h)
      simp only [h2, not_false_eq_true, if_true, Bool.false_eq_true, false_iff]
      rintro ⟨ha, hb, _⟩
      exact h2n ⟨ha, hb⟩

/-! ## Lemmas on the object-store client -/

theorem Get_absent {cli : Client} {key : NamespacedName} (hf : cli.nextFault = none)
    (h : cli.find key = none) :
    cli.Get key = (.error .notFound, cli.record (.get key)) := by
  simp [Client.Get, hf, h]

theorem Get_present {cli : Client} {key : NamespacedName} {obj : Ingress}
    (hf : cli.nextFault = none) (h : cli.find key = some obj) :
    cli.Get key = (.ok obj, cli.record (.get key)) := by
  simp [Client.Get, hf, h]

theorem Create_calls (cli : Client) (obj : Ingress) :
    (cli.Create obj).2.calls = cli.calls ++ [.create obj] := by
  unfold Client.Create
  cases cli.nextFault with
  | some e => rfl
  | none =>
    cases cli.find obj.key with
    | some o => rfl
    | none => rfl

theorem replaceAllDotDash_no_dot (s : String) : '.' ∉ (replaceAllDotDash s).data := by
  simp only [replaceAllDotDash, List.mem_map, not_exists, not_and]
  intro c _
  by_cases hc : c = '.'
  · rw [if_pos hc]
    decide
  · rw [if_neg hc]
    exact hc

/-! ## The claims on the reconciler -/

/-- C10: the create path of `AddFunc`. For every descriptor the validator
accepts and every store that answers the read and holds no object under the
derived key, `AddFunc` issues one `Get` and then exactly one `Create`, no
`Update` and no `Delete`; the created object is named after the host with
every `.` replaced by `-` (so its name has no `.`), lies in the namespace of
the source, carries the routing-class annotation `apisix` and the domain
annotation with the host, and has exactly one rule, for that host, with
exactly one entry, the one built from the descriptor. -/
theorem AddFunc_creates (cli : Client) (d : Service) (hd : validationSvc d = true)
    (hf : cli.nextFault = none)
    (habs : cli.find { Namespace := d.Namespace, Name := getIngressName d } = none) :
    ∃ port ports obj, d.Spec.Ports = port :: ports ∧
      obj =
        { Name := replaceAllDotDash (getIngressHost d)
          Namespace := d.Namespace
          Annotations := [("kubernetes.io/ingress.class", "apisix"),
            ("symcn.gateway.extension/domain", getIngressHost d)]
          Spec := { Rules := [{ Host := getIngressHost d,
                                HTTP := some { Paths := [entryOf d port] } }] } } ∧
      '.' ∉ obj.Name.data ∧
      AddFunc cli d =
        some ((cli.record (.get { Namespace := d.Namespace, Name := getIngressName d })).Create obj) ∧
      ∀ err cli1, AddFunc cli d = some (err, cli1) →
        cli1.calls =
          cli.calls ++ [.get { Namespace := d.Namespace, Name := getIngressName d }, .create obj] := by
  obtain ⟨port, ports, hports⟩ := ports_of_valid hd
  have he := build_of_ports hports
  have hrun : AddFunc cli d =
      some ((cli.record (.get { Namespace := d.Namespace, Name := getIngressName d })).Create
        { Name := replaceAllDotDash (getIngressHost d)
          Namespace := d.Namespace
          Annotations := [("kubernetes.io/ingress.class", "apisix"),
            ("symcn.gateway.extension/domain", getIngressHost d)]
          Spec := { Rules := [{ Host := getIngressHost d,
                                HTTP := some { Paths := [entryOf d port] } }] } }) := by
    simp only [AddFunc, Get_absent hf habs, buildNewIngressWithSvc, buildIngressRuleValue, he]
    rfl
  refine ⟨port, ports, _, hports, rfl, replaceAllDotDash_no_dot _, hrun, ?_⟩
  intro err cli1 h
  rw [hrun] at h
  have hc := Create_calls (cli.record (.get { Namespace := d.Namespace, Name := getIngressName d }))
    { Name := replaceAllDotDash (getIngressHost d)
      Namespace := d.Namespace
      Annotations := [("kubernetes.io/ingress.class", "apisix"),
        ("symcn.gateway.extension/domain", getIngressHost d)]
      Spec := { Rules := [{ Host := getIngressHost d,
                            HTTP := some { Paths := [entryOf d port] } }] } }
  rw [Option.some.inj h] at hc
  simpa [Client.record] using hc

/-- Witness of C10: source A added to the empty store creates
`default/foo-bar-com` with the single entry `/api → A:http`. -/
theorem AddFunc_creates_witness :
    validationSvc svcA = true ∧
      AddFunc (storeOf []) svcA =
        some (none,
          { objs := [ingressFoo [entryA]], faults := [],
            calls := [.get { Namespace := "default", Name := "foo-bar-com" },
              .create (ingressFoo [entryA])] }) := by
  refine ⟨by decide, ?_⟩
  obtain ⟨port, ports, obj, hports, hobj, _, hrun, _⟩ :=
    AddFunc_creates (storeOf []) svcA (by decide) rfl rfl
  have hport : port = { Name := "http", Port := 8080 } := by
    have h0 : svcA.Spec.Ports = [{ Name := "http", Port := 8080 }] := rfl
    rw [h0] at hports
    exact (List.cons.inj hports).1.symm
  rw [hrun, hobj, hport]
  decide

/-- C1, the code at a failing input: source A changes its domain annotation
from `foo.bar.com` to `baz.bar.com` while its labels stay the same. Both
objects pass the validator and their hosts differ, yet `UpdateFunc` goes on
past its guard, which compares `Labels` and not `Annotations`: it reads the
store under the new name and creates `default/baz-bar-com`, and A's entry
stays in `default/foo-bar-com`. -/
theorem UpdateFunc_host_change_creates :
    validationSvc svcA = true ∧ validationSvc svcA2 = true ∧
      getIngressHost svcA ≠ getIngressHost svcA2 ∧
      UpdateFunc (storeOf [ingressFoo [entryA]]) svcA svcA2 =
        some (none,
          { objs := [ingressFoo [entryA], ingressBaz [entryA]], faults := [],
            calls := [.get { Namespace := "default", Name := "baz-bar-com" },
              .create (ingressBaz [entryA])] }) := by
  decide

/-- C2 as stated fails: with the entries A, B stored and the path of A changed
from `api` to `apiv1`, `UpdateFunc` writes the entries B, A. Index 0, where A
was, now holds B's entry and not A's new entry, and index 1, where B was, no
longer holds B's entry. -/
theorem UpdateFunc_same_index_counterexample :
    UpdateFunc (storeOf [ingressFoo [entryA, entryB]]) svcA svcA1 =
        some (none,
          { objs := [ingressFoo [entryB, entryA1]], faults := [],
            calls := [.get { Namespace := "default", Name := "foo-bar-com" },
              .update (ingressFoo [entryB, entryA1])] }) ∧
      firstEntryAt svcA.Name [entryA, entryB] 0 = true ∧
      [entryB, entryA1][0]? ≠ some entryA1 ∧
      [entryB, entryA1][1]? ≠ [entryA, entryB][1]? := by
  decide

/-- C2 as amended: `UpdateFunc` removes and then appends. When the store answers
the read with an object whose first rule has the host of both descriptors and
whose entry list holds the entry of source A at index `i` and at least one
other entry, none of them routing to A, then for an old and a new descriptor
of A with the same labels the merged object has the stored entry list with
the element at index `i` deleted and the entry built from the new descriptor
added at the end: the length is unchanged, the other entries keep their
content and order, and A's new entry sits last. `UpdateFunc` returns without a
write when the merged spec equals the stored one and otherwise issues one
`Update` with the merged object. -/
theorem UpdateFunc_moves_entry_last (cli : Client) (oldA newA : Service) (ing : Ingress)
    (rule : IngressRule) (rest : List IngressRule) (http : HTTPIngressRuleValue) (i : Nat)
    (hd : validationSvc newA = true) (hname : oldA.Name = newA.Name)
    (hlab : oldA.Labels.index svcDomainAnnotationKey = newA.Labels.index svcDomainAnnotationKey)
    (hf : cli.nextFault = none)
    (hget : cli.find { Namespace := newA.Namespace, Name := getIngressName newA } = some ing)
    (hr : ing.Spec.Rules = rule :: rest)
    (hold : rule.Host = getIngressHost oldA) (hnew : rule.Host = getIngressHost newA)
    (hp : rule.HTTP = some http)
    (hi : firstEntryAt newA.Name http.Paths i = true)
    (huniq : (http.Paths.eraseIdx i).all (isOther newA.Name) = true)
    (hlen : 2 ≤ http.Paths.length) :
    ∃ port ports merged, newA.Spec.Ports = port :: ports ∧
      merged = { ing with Spec := { Rules :=
        { rule with HTTP := some { Paths := http.Paths.eraseIdx i ++ [entryOf newA port] } }
          :: rest } } ∧
      (http.Paths.eraseIdx i ++ [entryOf newA port]).length = http.Paths.length ∧
      UpdateFunc cli oldA newA =
        some (if merged.Spec = ing.Spec then
            (none, cli.record (.get { Namespace := newA.Namespace, Name := getIngressName newA }))
          else
            (cli.record (.get { Namespace := newA.Namespace, Name := getIngressName newA })).Update
              merged) := by
  obtain ⟨port, ports, hports⟩ := ports_of_valid hd
  have he := build_of_ports hports
  have hlt := firstEntryAt_lt hi
  have hne : ¬ http.Paths.length = 1 := by omega
  have hrem : ingressRemovePath ing oldA =
      some (setFirstRulePaths ing rule rest (http.Paths.eraseIdx i)) := by
    rw [removePath_found hr hold hp (hname ▸ hi), if_neg hne]
  have hadd : ingressAddPath (setFirstRulePaths ing rule rest (http.Paths.eraseIdx i)) newA =
      some { ing with Spec := { Rules :=
        { rule with HTTP := some { Paths := http.Paths.eraseIdx i ++ [entryOf newA port] } }
          :: rest } } := by
    rw [@addPath_absent _ newA { rule with HTTP := some { Paths := http.Paths.eraseIdx i } } rest
      { Paths := http.Paths.eraseIdx i } _ rfl hnew rfl huniq he]
    rfl
  have hmerge : ((ingressRemovePath ing oldA).bind fun removed => ingressAddPath removed newA) =
      some { ing with Spec := { Rules :=
        { rule with HTTP := some { Paths := http.Paths.eraseIdx i ++ [entryOf newA port] } }
          :: rest } } := by
    rw [hrem]
    exact hadd
  refine ⟨port, ports, _, hports, rfl, ?_, ?_⟩
  · rw [List.length_append, List.length_eraseIdx_of_lt hlt]
    simp only [List.length_singleton]
    omega
  · simp only [UpdateFunc, hlab, ne_eq, not_true_eq_false, if_false, Get_present hf hget, hmerge]
    split <;> rfl

/-- Witness of C2 as amended: the entries A, B and the path of A changed from
`api` to `apiv1`. -/
theorem UpdateFunc_moves_entry_last_witness :
    ∃ port ports merged, svcA1.Spec.Ports = port :: ports ∧
      merged = { ingressFoo [entryA, entryB] with Spec := { Rules :=
        [{ Host := "foo.bar.com",
           HTTP := some { Paths := [entryA, entryB].eraseIdx 0 ++ [entryOf svcA1 port] } }] } } ∧
      ([entryA, entryB].eraseIdx 0 ++ [entryOf svcA1 port]).length = 2 ∧
      UpdateFunc (storeOf [ingressFoo [entryA, entryB]]) svcA svcA1 =
        some (if merged.Spec = (ingressFoo [entryA, entryB]).Spec then
            (none, (storeOf [ingressFoo [entryA, entryB]]).record
              (.get { Namespace := svcA1.Namespace, Name := getIngressName svcA1 }))
          else
            ((storeOf [ingressFoo [entryA, entryB]]).record
              (.get { Namespace := svcA1.Namespace, Name := getIngressName svcA1 })).Update
              merged) :=
  UpdateFunc_moves_entry_last (storeOf [ingressFoo [entryA, entryB]]) svcA svcA1
    (ingressFoo [entryA, entryB])
    { Host := "foo.bar.com", HTTP := some { Paths := [entryA, entryB] } } []
    { Paths := [entryA, entryB] } 0
    (by decide) rfl rfl rfl (by decide) rfl (by decide) (by decide) rfl (by decide) (by decide)
    (by decide)


/-! ## Path normalisation and port selection -/

theorem data_slash_append (p : String) : ("/" ++ p).data = '/' :: p.data := by
  rw [String.data_append]
  rfl

/-- C11: path normalisation. For every source object with path annotation value
`p`, the route path is `p` itself when `p` begins with `/`, and `/` followed by
`p` otherwise; so the route path always begins with `/`, and a source whose
path annotation is an already normalised path gets that path unchanged. -/
theorem getIngressPath_normalises (svc : Service) :
    (∀ rest, (svc.Annotations.index "ingressPath").data = '/' :: rest →
        getIngressPath svc = svc.Annotations.index "ingressPath") ∧
      ((∀ rest, (svc.Annotations.index "ingressPath").data ≠ '/' :: rest) →
        (getIngressPath svc).data = '/' :: (svc.Annotations.index "ingressPath").data) ∧
      (∃ rest, (getIngressPath svc).data = '/' :: rest) ∧
      ∀ svc1 : Service, svc1.Annotations.index "ingressPath" = getIngressPath svc →
        getIngressPath svc1 = getIngressPath svc := by
  have hstart : ∃ rest, (getIngressPath svc).data = '/' :: rest := by
    unfold getIngressPath
    simp only [svcPathAnnotationKey]
    split
    · rename_i h
      cases hd : (svc.Annotations.index "ingressPath").data with
      | nil => simp [hd] at h
      | cons c cs =>
        simp only [hd, List.head?_cons, Option.some.injEq] at h
        exact ⟨cs, by rw [h]⟩
    · exact ⟨_, data_slash_append _⟩
  refine ⟨?_, ?_, hstart, ?_⟩
  · intro rest h
    simp [getIngressPath, svcPathAnnotationKey, h]
  · intro h
    have hne : ¬ (svc.Annotations.index "ingressPath").data.head? = some '/' := by
      intro hc
      cases hd : (svc.Annotations.index "ingressPath").data with
      | nil => simp [hd] at hc
      | cons c cs =>
        simp only [hd, List.head?_cons, Option.some.injEq] at hc
        exact h cs (by rw [hd, hc])
    simp only [getIngressPath, svcPathAnnotationKey, hne, if_false]
    exact data_slash_append _
  · intro svc1 h1
    obtain ⟨rest, hrest⟩ := hstart
    have hh : (svc1.Annotations.index "ingressPath").data.head? = some '/' := by
      rw [h1, hrest]
      rfl
    have : getIngressPath svc1 = svc1.Annotations.index "ingressPath" := by
      unfold getIngressPath
      simp only [svcPathAnnotationKey]
      rw [if_pos hh]
    rw [this, h1]

/-- Witness of C11: the path annotations `api` and `/api` both give `/api`. -/
theorem getIngressPath_normalises_witness :
    getIngressPath svcA = "/api" ∧
      ∀ svc1 : Service, svc1.Annotations.index "ingressPath" = getIngressPath svcA →
        getIngressPath svc1 = getIngressPath svcA :=
  ⟨by decide, (getIngressPath_normalises svcA).2.2.2⟩

/-- C12: backend port selection. For every source object with a non-empty port
list the backend port of its path entry is decided by the first port alone:
when that port has a name the backend carries the name and no number, and
when the name is empty it carries the port number and no name. -/
theorem getIngresssServiceBackend_selects (svc : Service) (port : ServicePort)
    (ports : List ServicePort) (hp : svc.Spec.Ports = port :: ports) :
    (port.Name ≠ "" →
        getIngresssServiceBackend svc = some { Name := port.Name, Number := 0 }) ∧
      (port.Name = "" →
        getIngresssServiceBackend svc = some { Name := "", Number := port.Port }) ∧
      ∃ backendPort e, getIngresssServiceBackend svc = some backendPort ∧
        buildHTTPIngressPath svc = some e ∧
        e.Backend.Service = some { Name := svc.Name, Port := backendPort } := by
  refine ⟨?_, ?_, ?_⟩
  · intro h
    simp [getIngresssServiceBackend, hp, h]
  · intro h
    simp [getIngresssServiceBackend, hp, h]
  · by_cases h : port.Name = ""
    · have hb : getIngresssServiceBackend svc = some { Name := "", Number := port.Port } := by
        simp [getIngresssServiceBackend, hp, h]
      exact ⟨_, _, hb, by rw [buildHTTPIngressPath, hb]; rfl, rfl⟩
    · have hb : getIngresssServiceBackend svc = some { Name := port.Name, Number := 0 } := by
        simp [getIngresssServiceBackend, hp, h]
      exact ⟨_, _, hb, by rw [buildHTTPIngressPath, hb]; rfl, rfl⟩

/-- Witness of C12: the named port `http` of source A and the unnamed port 9090
of source B. -/
theorem getIngresssServiceBackend_selects_witness :
    ((({ Name := "http", Port := 8080 } : ServicePort).Name ≠ "" →
        getIngresssServiceBackend svcA = some { Name := "http", Number := 0 }) ∧
      (({ Name := "http", Port := 8080 } : ServicePort).Name = "" →
        getIngresssServiceBackend svcA = some { Name := "", Number := 8080 }) ∧
      ∃ backendPort e, getIngresssServiceBackend svcA = some backendPort ∧
        buildHTTPIngressPath svcA = some e ∧
        e.Backend.Service = some { Name := svcA.Name, Port := backendPort }) ∧
      getIngresssServiceBackend svcB = some { Name := "", Number := 9090 } :=
  ⟨getIngresssServiceBackend_selects svcA { Name := "http", Port := 8080 } [] rfl, by decide⟩


/-! ## Further lemmas on the object-store client -/

theorem Update_calls (cli : Client) (obj : Ingress) :
    (cli.Update obj).2.calls = cli.calls ++ [.update obj] := by
  unfold Client.Update
  cases cli.nextFault with
  | some e => rfl
  | none =>
    cases cli.find obj.key with
    | some o => rfl
    | none => rfl

theorem Delete_calls (cli : Client) (obj : Ingress) :
    (cli.Delete obj).2.calls = cli.calls ++ [.delete obj] := by
  unfold Client.Delete
  cases cli.nextFault with
  | some e => rfl
  | none =>
    cases cli.find obj.key with
    | some o => rfl
    | none => rfl

/-! ## Single-host limitation, rejected objects, decision procedure of `DeleteFunc` -/

/-- C16: the single-host limitation is a silent no-op. For every snapshot whose
first rule has another host than the descriptor, `ingressAddPath` returns the
snapshot itself; so for every store that answers the read with such an object
under the derived key, `AddFunc` returns success after the one `Get` and
issues no `Create`, `Update` or `Delete`, and the stored objects stay as they
were. -/
theorem ingressAddPath_other_host_noop (s : Ingress) (d : Service) (rule : IngressRule)
    (rest : List IngressRule) (hr : s.Spec.Rules = rule :: rest)
    (hh : rule.Host ≠ getIngressHost d) :
    ingressAddPath s d = some s ∧
      ∀ cli : Client, cli.nextFault = none →
        cli.find { Namespace := d.Namespace, Name := getIngressName d } = some s →
        AddFunc cli d =
            some (none, cli.record (.get { Namespace := d.Namespace, Name := getIngressName d })) ∧
          (cli.record (.get { Namespace := d.Namespace, Name := getIngressName d })).objs =
            cli.objs ∧
          (cli.record (.get { Namespace := d.Namespace, Name := getIngressName d })).calls =
            cli.calls ++ [.get { Namespace := d.Namespace, Name := getIngressName d }] := by
  have hadd := @addPath_other_host s d rule rest hr hh
  refine ⟨hadd, ?_⟩
  intro cli hf hfind
  refine ⟨?_, rfl, rfl⟩
  simp [AddFunc, Get_present hf hfind, hadd]

/-- Witness of C16: the hosts `a.b` and `a-b` share the derived name `a-b`;
adding the source of host `a-b` to a store holding the object of host `a.b`
writes nothing. -/
theorem ingressAddPath_other_host_noop_witness :
    validationSvc svcDash = true ∧ getIngressName svcDash = ingressDot.Name ∧
      ingressAddPath ingressDot svcDash = some ingressDot ∧
      AddFunc (storeOf [ingressDot]) svcDash =
        some (none,
          { objs := [ingressDot], faults := [],
            calls := [.get { Namespace := "default", Name := "a-b" }] }) := by
  have h := ingressAddPath_other_host_noop ingressDot svcDash
    { Host := "a.b", HTTP := some { Paths := [entryA] } } [] rfl (by decide)
  refine ⟨by decide, by decide, h.1, ?_⟩
  rw [(h.2 (storeOf [ingressDot]) rfl (by decide)).1]
  decide

/-- C15: validation failures never touch the store. When `convertToSvc` rejects
the object of an event (it is not a service, or the validator rejects it), the
add handler and the delete handler return with the client as it was: no `Get`,
`Create`, `Update` or `Delete` is issued, the retry loop is not entered and
the stored objects are unchanged. The update handler does the same when the
old object or the new object is rejected. -/
theorem handlers_drop_rejected (cli : Client) (obj : Object) (hrej : convertToSvc obj = none) :
    OnAdd cli obj = some cli ∧ OnDelete cli obj = some cli ∧
      ∀ obj2 : Object, OnUpdate cli obj obj2 = some cli ∧ OnUpdate cli obj2 obj = some cli := by
  refine ⟨by simp [OnAdd, hrej], by simp [OnDelete, hrej], ?_⟩
  intro obj2
  refine ⟨by simp [OnUpdate, hrej], ?_⟩
  unfold OnUpdate
  cases convertToSvc obj2 with
  | none => rfl
  | some oldSvc => simp [hrej]

/-- Witness of C15: a service without ports is rejected and dropped. -/
theorem handlers_drop_rejected_witness :
    validationSvc svcNoPort = false ∧ convertToSvc (.service svcNoPort) = none ∧
      OnAdd (storeOf [ingressFoo [entryA]]) (.service svcNoPort) =
        some (storeOf [ingressFoo [entryA]]) ∧
      OnDelete (storeOf [ingressFoo [entryA]]) (.service svcNoPort) =
        some (storeOf [ingressFoo [entryA]]) ∧
      OnUpdate (storeOf [ingressFoo [entryA]]) (.service svcNoPort) (.service svcA) =
        some (storeOf [ingressFoo [entryA]]) ∧
      OnUpdate (storeOf [ingressFoo [entryA]]) (.service svcA) (.service svcNoPort) =
        some (storeOf [ingressFoo [entryA]]) :=
  have h := handlers_drop_rejected (storeOf [ingressFoo [entryA]]) (.service svcNoPort)
    (by decide)
  ⟨by decide, by decide, h.1, h.2.1, (h.2.2 (.service svcA)).1, (h.2.2 (.service svcA)).2⟩

theorem removePath_changed {ing r : Ingress} {d : Service}
    (hrem : ingressRemovePath ing d = some r) (hne : r.Spec.Rules ≠ [])
    (hchg : r.Spec ≠ ing.Spec) :
    ∃ rule rest http i, ing.Spec.Rules = rule :: rest ∧ rule.Host = getIngressHost d ∧
      rule.HTTP = some http ∧ firstEntryAt d.Name http.Paths i = true ∧
      http.Paths.eraseIdx i ≠ [] ∧
      r = { ing with Spec := { Rules :=
        { rule with HTTP := some { Paths := http.Paths.eraseIdx i } } :: rest } } := by
  unfold ingressRemovePath at hrem
  split at hrem
  · cases hrem
    exact absurd rfl hchg
  · rename_i rule rest hr
    split at hrem
    · cases hrem
      exact absurd rfl hchg
    · rename_i hh
      split at hrem
      · cases hrem
      · rename_i http hp
        split at hrem
        · cases hrem
          exact absurd rfl hchg
        · split at hrem
          · cases hrem
          · cases hrem
            exact absurd rfl hchg
          · rename_i index hscan
            rw [take_append_drop_succ] at hrem
            simp only at hrem
            split at hrem
            · cases hrem
              exact absurd rfl hne
            · rename_i hlen
              cases hrem
              refine ⟨rule, rest, http, index, hr, by simpa using hh, hp,
                firstEntryAt_of_scan _ _ hscan, ?_, rfl⟩
              intro h0
              exact hlen (by rw [h0]; rfl)

/-- C14: the decision procedure of `DeleteFunc`, for every descriptor and every
store that answers the read. (i) When no object is stored under the derived
key it returns success after the one `Get`, with no write. When an object is
stored and `ingressRemovePath` returns `r`: (ii) if `r` has no rule, exactly
one `Delete` of `r` is issued and no `Update`; (iii) if `r` has a rule and its
spec equals the stored spec, no write is issued; (iv) otherwise exactly one
`Update` of `r` is issued, and `r` is the stored object with the first entry
of the source deleted from the entry list, the other entries in their
order. -/
theorem DeleteFunc_decides (cli : Client) (d : Service) (hf : cli.nextFault = none) :
    (cli.find { Namespace := d.Namespace, Name := getIngressName d } = none →
        DeleteFunc cli d =
          some (none, cli.record (.get { Namespace := d.Namespace, Name := getIngressName d }))) ∧
      ∀ ing r, cli.find { Namespace := d.Namespace, Name := getIngressName d } = some ing →
        ingressRemovePath ing d = some r →
        (r.Spec.Rules = [] →
          DeleteFunc cli d =
              some ((cli.record
                (.get { Namespace := d.Namespace, Name := getIngressName d })).Delete r) ∧
            ∀ err cli1, DeleteFunc cli d = some (err, cli1) →
              cli1.calls = cli.calls ++
                [.get { Namespace := d.Namespace, Name := getIngressName d }, .delete r]) ∧
        (r.Spec.Rules ≠ [] → r.Spec = ing.Spec →
          DeleteFunc cli d =
            some (none,
              cli.record (.get { Namespace := d.Namespace, Name := getIngressName d }))) ∧
        (r.Spec.Rules ≠ [] → r.Spec ≠ ing.Spec →
          DeleteFunc cli d =
              some ((cli.record
                (.get { Namespace := d.Namespace, Name := getIngressName d })).Update r) ∧
            (∀ err cli1, DeleteFunc cli d = some (err, cli1) →
              cli1.calls = cli.calls ++
                [.get { Namespace := d.Namespace, Name := getIngressName d }, .update r]) ∧
            ∃ rule rest http i, ing.Spec.Rules = rule :: rest ∧ rule.HTTP = some http ∧
              firstEntryAt d.Name http.Paths i = true ∧
              r = { ing with Spec := { Rules :=
                { rule with HTTP := some { Paths := http.Paths.eraseIdx i } } :: rest } }) := by
  refine ⟨?_, ?_⟩
  · intro habs
    simp [DeleteFunc, Get_absent hf habs]
  · intro ing r hfind hrem
    refine ⟨?_, ?_, ?_⟩
    · intro hnil
      have hrun : DeleteFunc cli d =
          some ((cli.record
            (.get { Namespace := d.Namespace, Name := getIngressName d })).Delete r) := by
        simp [DeleteFunc, Get_present hf hfind, hrem, hnil]
      refine ⟨hrun, ?_⟩
      intro err cli1 h
      rw [hrun] at h
      have hc := Delete_calls
        (cli.record (.get { Namespace := d.Namespace, Name := getIngressName d })) r
      rw [Option.some.inj h] at hc
      simpa [Client.record] using hc
    · intro hne heq
      have hlen : ¬ r.Spec.Rules.length = 0 := by
        intro h0
        exact hne (List.length_eq_zero.mp h0)
      unfold DeleteFunc
      rw [Get_present hf hfind]
      simp only [hrem]
      rw [if_neg hlen, if_pos heq]
    · intro hne hchg
      have hlen : ¬ r.Spec.Rules.length = 0 := by
        intro h0
        exact hne (List.length_eq_zero.mp h0)
      have hrun : DeleteFunc cli d =
          some ((cli.record
            (.get { Namespace := d.Namespace, Name := getIngressName d })).Update r) := by
        simp [DeleteFunc, Get_present hf hfind, hrem, hlen, hchg]
      refine ⟨hrun, ?_, ?_⟩
      · intro err cli1 h
        rw [hrun] at h
        have hc := Update_calls
          (cli.record (.get { Namespace := d.Namespace, Name := getIngressName d })) r
        rw [Option.some.inj h] at hc
        simpa [Client.record] using hc
      · obtain ⟨rule, rest, http, i, h1, _, h3, h4, _, h6⟩ := removePath_changed hrem hne hchg
        exact ⟨rule, rest, http, i, h1, h3, h4, h6⟩

/-- Witness of C14: with the entries A, B stored, deleting A updates the object
to the entry B, and then deleting B deletes the object. -/
theorem DeleteFunc_decides_witness :
    DeleteFunc (storeOf [ingressFoo [entryA, entryB]]) svcA =
        some (none,
          { objs := [ingressFoo [entryB]], faults := [],
            calls := [.get { Namespace := "default", Name := "foo-bar-com" },
              .update (ingressFoo [entryB])] }) ∧
      DeleteFunc (storeOf [ingressFoo [entryB]]) svcB =
        some (none,
          { objs := [], faults := [],
            calls := [.get { Namespace := "default", Name := "foo-bar-com" },
              .delete ingressNoRule] }) := by
  have hA := (DeleteFunc_decides (storeOf [ingressFoo [entryA, entryB]]) svcA rfl).2
    (ingressFoo [entryA, entryB]) (ingressFoo [entryB]) (by decide) (by decide)
  have hB := (DeleteFunc_decides (storeOf [ingressFoo [entryB]]) svcB rfl).2
    (ingressFoo [entryB]) ingressNoRule (by decide) (by decide)
  refine ⟨?_, ?_⟩
  · rw [(hA.2.2 (by decide) (by decide)).1]
    decide
  · rw [(hB.1 (by decide)).1]
    decide


/-! ## The retry loop -/

/-- C17 as stated fails: a `Create` and a `Delete` rejected with a conflict are
retried. With the empty store scripted to reject the first `Create` with a
conflict, the add cycle is run again from its `Get` and creates the object;
with the store scripted to reject the first `Delete` with a conflict, the
delete cycle is run again from its `Get` and deletes the object. -/
theorem RetryOnConflict_create_delete_counterexample :
    RetryOnConflict (fun c => AddFunc c svcA)
        { objs := [], faults := [none, some .conflict], calls := [] } =
      some (none,
        { objs := [ingressFoo [entryA]], faults := [],
          calls := [.get { Namespace := "default", Name := "foo-bar-com" },
            .create (ingressFoo [entryA]),
            .get { Namespace := "default", Name := "foo-bar-com" },
            .create (ingressFoo [entryA])] }) ∧
    RetryOnConflict (fun c => DeleteFunc c svcA)
        { objs := [ingressFoo [entryA]], faults := [none, some .conflict], calls := [] } =
      some (none,
        { objs := [], faults := [],
          calls := [.get { Namespace := "default", Name := "foo-bar-com" },
            .delete ingressNoRule,
            .get { Namespace := "default", Name := "foo-bar-com" },
            .delete ingressNoRule] }) := by
  decide

/-- C17 as amended: scope and bound of the retry loop around a cycle `fn` (the
handlers pass `AddFunc`, `UpdateFunc` and `DeleteFunc`, each a whole cycle
that begins with its read). A success or an error other than a conflict ends
the loop at once with that result, so a `Create` or `Delete` rejected with
another error kind is surfaced without a second run. A conflict, whichever
call of the cycle reported it, makes the loop run the whole cycle again on the
state the failed run left, and the same holds for the second and the third
run: a success or another error after one or two conflicts ends the loop with
that result. The cycle runs at most four times: after three conflicts the
result of the fourth run is returned whatever it is, so a fourth conflict is
surfaced. -/
theorem RetryOnConflict_scope (fn : Client → Option (Option StoreErr × Client))
    (cli : Client) :
    (∀ r cli1, fn cli = some (r, cli1) → r ≠ some .conflict →
        RetryOnConflict fn cli = some (r, cli1)) ∧
      (∀ cli1, fn cli = some (some .conflict, cli1) →
        ∀ r cli2, fn cli1 = some (r, cli2) → r ≠ some .conflict →
          RetryOnConflict fn cli = some (r, cli2)) ∧
      (∀ cli1 cli2, fn cli = some (some .conflict, cli1) →
        fn cli1 = some (some .conflict, cli2) →
        ∀ r cli3, fn cli2 = some (r, cli3) → r ≠ some .conflict →
          RetryOnConflict fn cli = some (r, cli3)) ∧
      (∀ cli1 cli2 cli3 cli4, fn cli = some (some .conflict, cli1) →
        fn cli1 = some (some .conflict, cli2) → fn cli2 = some (some .conflict, cli3) →
        fn cli3 = some (some .conflict, cli4) →
        RetryOnConflict fn cli = some (some .conflict, cli4)) ∧
      (∀ cli1 cli2 cli3, fn cli = some (some .conflict, cli1) →
        fn cli1 = some (some .conflict, cli2) → fn cli2 = some (some .conflict, cli3) →
        RetryOnConflict fn cli = fn cli3) := by
  have hend : ∀ (n : Nat) (last : Option StoreErr) (c : Client) (r : Option StoreErr)
      (c1 : Client), fn c = some (r, c1) → r ≠ some .conflict →
      OnError (fun err => err = .conflict) fn (n + 1) last c = some (r, c1) := by
    intro n last c r c1 h hr
    cases r with
    | none => simp [OnError, h]
    | some e =>
      have he : e ≠ .conflict := fun hc => hr (by rw [hc])
      simp [OnError, h, he]
  have hagain : ∀ (n : Nat) (last : Option StoreErr) (c c1 : Client),
      fn c = some (some .conflict, c1) →
      OnError (fun err => err = .conflict) fn (n + 1) last c =
        OnError (fun err => err = .conflict) fn n (some .conflict) c1 := by
    intro n last c c1 h
    simp [OnError, h]
  refine ⟨?_, ?_, ?_, ?_, ?_⟩
  · intro r cli1 h hr
    exact hend 3 none cli r cli1 h hr
  · intro cli1 h r cli2 h2 hr
    unfold RetryOnConflict DefaultBackoffSteps
    rw [hagain 3 none cli cli1 h]
    exact hend 2 _ cli1 r cli2 h2 hr
  · intro cli1 cli2 h1 h2 r cli3 h3 hr
    unfold RetryOnConflict DefaultBackoffSteps
    rw [hagain 3 none cli cli1 h1, hagain 2 _ cli1 cli2 h2]
    exact hend 1 _ cli2 r cli3 h3 hr
  · intro cli1 cli2 cli3 cli4 h1 h2 h3 h4
    unfold RetryOnConflict DefaultBackoffSteps
    rw [hagain 3 none cli cli1 h1, hagain 2 _ cli1 cli2 h2, hagain 1 _ cli2 cli3 h3,
      hagain 0 _ cli3 cli4 h4]
    rfl
  · intro cli1 cli2 cli3 h1 h2 h3
    unfold RetryOnConflict DefaultBackoffSteps
    rw [hagain 3 none cli cli1 h1, hagain 2 _ cli1 cli2 h2, hagain 1 _ cli2 cli3 h3]
    cases h4 : fn cli3 with
    | none => simp [OnError, h4]
    | some p =>
      obtain ⟨r, c4⟩ := p
      by_cases hr : r = some .conflict
      · subst hr
        rw [hagain 0 _ cli3 c4 h4]
        rfl
      · exact hend 0 _ cli3 r c4 h4 hr

/-- Witness of C17 as amended: a `Create` rejected because the object exists
(the read was answered from a stale cache) is surfaced after one cycle. -/
theorem RetryOnConflict_scope_witness :
    RetryOnConflict (fun c => AddFunc c svcA)
        { objs := [ingressFoo [entryB]], faults := [some .notFound], calls := [] } =
      some (some .alreadyExists,
        { objs := [ingressFoo [entryB]], faults := [],
          calls := [.get { Namespace := "default", Name := "foo-bar-com" },
            .create (ingressFoo [entryA])] }) :=
  (RetryOnConflict_scope (fun c => AddFunc c svcA)
      { objs := [ingressFoo [entryB]], faults := [some .notFound], calls := [] }).1
    _ _ (by decide) (by decide)


/-! ## Totality of the merge engine -/

theorem scan_index_lt {name : String} {ps : List HTTPIngressPath} {i : Nat}
    (h : scanServiceName name ps = some (some i)) : i < ps.length :=
  firstEntryAt_lt (firstEntryAt_of_scan ps i h)

theorem addPath_total {s : Ingress} {d : Service} (hd : validationSvc d = true)
    (hs : wellFormed s = true) : ∃ s1, ingressAddPath s d = some s1 := by
  obtain ⟨port, ports, hports⟩ := ports_of_valid hd
  have he := build_of_ports hports
  cases hr : s.Spec.Rules with
  | nil => exact ⟨_, addPath_no_rule hr he⟩
  | cons rule rest =>
    by_cases hh : rule.Host = getIngressHost d
    · obtain ⟨http, hp, hsome⟩ := wellFormed_cons hs hr
      rcases @scan_cases d.Name _ hsome with hab | ⟨i, hi⟩
      · exact ⟨_, addPath_absent hr hh hp hab he⟩
      · exact ⟨_, addPath_found hr hh hp hi he⟩
    · exact ⟨s, addPath_other_host hr hh⟩

theorem removePath_total {s : Ingress} {d : Service} (hs : wellFormed s = true) :
    ∃ s1, ingressRemovePath s d = some s1 := by
  cases hr : s.Spec.Rules with
  | nil => exact ⟨s, removePath_no_rule hr⟩
  | cons rule rest =>
    by_cases hh : rule.Host = getIngressHost d
    · obtain ⟨http, hp, hsome⟩ := wellFormed_cons hs hr
      rcases @scan_cases d.Name _ hsome with hab | ⟨i, hi⟩
      · exact ⟨s, removePath_absent hr hp hab⟩
      · rw [removePath_found hr hh hp hi]
        split
        · exact ⟨_, rfl⟩
        · exact ⟨_, rfl⟩
    · exact ⟨s, removePath_other_host hr hh⟩

/-- C20 as stated fails: a snapshot whose rule carries a path list can hold an
entry whose backend is not a service. For the validated source A and the
object holding one such entry under A's host, the scan dereferences the nil
`Service` pointer: neither `ingressAddPath` nor `ingressRemovePath` returns a
result. -/
theorem merge_engine_nil_service_counterexample :
    validationSvc svcA = true ∧
      (ingressFoo [entryResource]).Spec.Rules =
        [{ Host := "foo.bar.com", HTTP := some { Paths := [entryResource] } }] ∧
      ingressAddPath (ingressFoo [entryResource]) svcA = none ∧
      ingressRemovePath (ingressFoo [entryResource]) svcA = none := by
  decide

/-- C20 as amended: the merge engine is total on validated input and snapshots
of the data model. For every source object the validator accepts and every
snapshot in which each rule carries a (possibly empty) path list and each
entry routes to a service, building a path entry, `ingressAddPath` and
`ingressRemovePath` all return a result; the port list read at index 0 is
non-empty, and whenever the scan of the first rule reports a hit the index of
the hit lies within the entry list. -/
theorem merge_engine_total (s : Ingress) (d : Service) (hd : validationSvc d = true)
    (hs : wellFormed s = true) :
    (∃ port ports, d.Spec.Ports = port :: ports) ∧
      (∃ e, buildHTTPIngressPath d = some e) ∧
      (∃ s1, ingressAddPath s d = some s1) ∧
      (∃ s2, ingressRemovePath s d = some s2) ∧
      ∀ rule rest http i, s.Spec.Rules = rule :: rest → rule.HTTP = some http →
        scanServiceName d.Name http.Paths = some (some i) → i < http.Paths.length := by
  obtain ⟨port, ports, hports⟩ := ports_of_valid hd
  refine ⟨⟨port, ports, hports⟩, ⟨_, build_of_ports hports⟩, addPath_total hd hs,
    removePath_total hs, ?_⟩
  intro rule rest http i _ _ hscan
  exact scan_index_lt hscan

/-- Witness of C20 as amended: source A and the object holding the entries A, B. -/
theorem merge_engine_total_witness :
    validationSvc svcA = true ∧ wellFormed (ingressFoo [entryA, entryB]) = true ∧
      (∃ e, buildHTTPIngressPath svcA = some e) ∧
      (∃ s1, ingressAddPath (ingressFoo [entryA, entryB]) svcA = some s1) ∧
      (∃ s2, ingressRemovePath (ingressFoo [entryA, entryB]) svcA = some s2) :=
  have h := merge_engine_total (ingressFoo [entryA, entryB]) svcA (by decide) (by decide)
  ⟨by decide, by decide, h.2.1, h.2.2.1, h.2.2.2.1⟩


/-! ## Lemmas on the data-model invariant -/

theorem backendName_of_named {name : String} {p : HTTPIngressPath}
    (h : isNamed name p = true) : backendName p = some name := by
  obtain ⟨sv, hsv, he⟩ := isNamed_service h
  simp [backendName, hsv, he]

theorem backendName_ne_of_other {name : String} {p : HTTPIngressPath}
    (h : isOther name p = true) : backendName p ≠ some name := by
  obtain ⟨sv, hsv, hne⟩ := isOther_service h
  simp [backendName, hsv, hne]

theorem isOther_of_backendName_ne {name : String} {p : HTTPIngressPath}
    (hs : p.Backend.Service.isSome = true) (h : backendName p ≠ some name) :
    isOther name p = true := by
  cases hsv : p.Backend.Service with
  | none => simp [hsv] at hs
  | some sv =>
    simp only [backendName, hsv, Option.map_some', ne_eq, Option.some.injEq] at h
    simp [isOther, hsv, h]

theorem not_mem_names_of_all_other {name : String} {ps : List HTTPIngressPath}
    (h : ps.all (isOther name) = true) : some name ∉ ps.map backendName := by
  intro hm
  obtain ⟨p, hp, hpn⟩ := List.mem_map.mp hm
  exact backendName_ne_of_other (List.all_eq_true.mp h p hp) hpn

theorem all_other_of_not_mem {name : String} {ps : List HTTPIngressPath}
    (hs : (ps.all fun p => p.Backend.Service.isSome) = true)
    (h : some name ∉ ps.map backendName) : ps.all (isOther name) = true := by
  rw [List.all_eq_true]
  intro p hp
  apply isOther_of_backendName_ne (List.all_eq_true.mp hs p hp)
  intro hc
  exact h (List.mem_map.mpr ⟨p, hp, hc⟩)

theorem all_other_eraseIdx {name : String} :
    ∀ (ps : List HTTPIngressPath) (i : Nat),
      (ps.all fun p => p.Backend.Service.isSome) = true → (ps.map backendName).Nodup →
      firstEntryAt name ps i = true → (ps.eraseIdx i).all (isOther name) = true
  | [], i, _, _, h => by simp [firstEntryAt] at h
  | p :: ps, 0, hs, hn, h => by
    simp only [firstEntryAt, List.take_zero, List.all_nil, Bool.true_and, List.length_cons,
      Nat.zero_lt_succ, List.getElem?_eq_getElem, List.getElem_cons_zero] at h
    simp only [List.all_cons, Bool.and_eq_true] at hs
    simp only [List.map_cons, List.nodup_cons] at hn
    rw [backendName_of_named h] at hn
    exact all_other_of_not_mem hs.2 hn.1
  | p :: ps, i + 1, hs, hn, h => by
    simp only [firstEntryAt, List.take_succ_cons, List.all_cons, Bool.and_eq_true,
      List.getElem?_cons_succ] at h
    simp only [List.all_cons, Bool.and_eq_true] at hs
    simp only [List.map_cons, List.nodup_cons] at hn
    have hi : firstEntryAt name ps i = true := by
      simp only [firstEntryAt, Bool.and_eq_true]
      exact ⟨h.1.2, h.2⟩
    simp only [List.eraseIdx_cons_succ, List.all_cons, Bool.and_eq_true]
    exact ⟨h.1.1, all_other_eraseIdx ps i hs.2 hn.2 hi⟩

theorem names_at_first {name : String} {ps : List HTTPIngressPath} {i : Nat}
    (hi : firstEntryAt name ps i = true) : (ps.map backendName)[i]? = some (some name) := by
  simp only [firstEntryAt, Bool.and_eq_true] at hi
  rw [List.getElem?_map]
  cases hp : ps[i]? with
  | none => simp [hp] at hi
  | some p =>
    simp only [hp] at hi
    simp [backendName_of_named hi.2]

theorem set_of_getElem? {α : Type} :
    ∀ (l : List α) (i : Nat) (a : α), l[i]? = some a → l.set i a = l
  | [], _, _, h => by simp at h
  | x :: l, 0, a, h => by
    simp only [List.length_cons, Nat.zero_lt_succ, List.getElem?_eq_getElem,
      List.getElem_cons_zero, Option.some.injEq] at h
    simp [h]
  | x :: l, i + 1, a, h => by
    simp only [List.getElem?_cons_succ] at h
    simp [set_of_getElem? l i a h]

theorem names_set {name : String} {ps : List HTTPIngressPath} {i : Nat} {e : HTTPIngressPath}
    (hi : firstEntryAt name ps i = true) (he : isNamed name e = true) :
    (ps.set i e).map backendName = ps.map backendName := by
  rw [List.map_set, backendName_of_named he]
  exact set_of_getElem? _ _ _ (names_at_first hi)

theorem allService_set {ps : List HTTPIngressPath} {i : Nat} {e : HTTPIngressPath}
    (hs : (ps.all fun p => p.Backend.Service.isSome) = true)
    (he : e.Backend.Service.isSome = true) :
    ((ps.set i e).all fun p => p.Backend.Service.isSome) = true := by
  rw [List.all_eq_true] at hs ⊢
  intro p hp
  rcases List.mem_or_eq_of_mem_set hp with h | h
  · exact hs p h
  · rw [h]
    exact he

theorem allService_eraseIdx {ps : List HTTPIngressPath} (i : Nat)
    (hs : (ps.all fun p => p.Backend.Service.isSome) = true) :
    ((ps.eraseIdx i).all fun p => p.Backend.Service.isSome) = true := by
  rw [List.all_eq_true] at hs ⊢
  intro p hp
  exact hs p ((List.eraseIdx_sublist ps i).subset hp)

theorem service_of_named {name : String} {e : HTTPIngressPath} (he : isNamed name e = true) :
    e.Backend.Service.isSome = true := by
  obtain ⟨sv, hsv, _⟩ := isNamed_service he
  simp [hsv]

theorem inv_no_rule {s : Ingress} (hr : s.Spec.Rules = []) : dataInvariant s = true := by
  simp [dataInvariant, wellFormed, backendNames, hr]

theorem inv_one_rule {s : Ingress} {rule : IngressRule} {http : HTTPIngressRuleValue}
    (hr : s.Spec.Rules = [rule]) (hp : rule.HTTP = some http)
    (hs : (http.Paths.all fun p => p.Backend.Service.isSome) = true)
    (hn : (http.Paths.map backendName).Nodup) : dataInvariant s = true := by
  simp only [dataInvariant, wellFormed, backendNames, hr, hp, List.all_cons, List.all_nil,
    Bool.and_true, List.length_singleton, le_refl, decide_True, Bool.and_eq_true,
    decide_eq_true_eq]
  exact ⟨hs, hn⟩

theorem inv_cons {s : Ingress} {rule : IngressRule} {rest : List IngressRule}
    (h : dataInvariant s = true) (hr : s.Spec.Rules = rule :: rest) :
    rest = [] ∧ ∃ http, rule.HTTP = some http ∧
      (http.Paths.all fun p => p.Backend.Service.isSome) = true ∧
      (http.Paths.map backendName).Nodup := by
  simp only [dataInvariant, Bool.and_eq_true, decide_eq_true_eq] at h
  obtain ⟨⟨hw, hl⟩, hn⟩ := h
  obtain ⟨http, hp, hs⟩ := wellFormed_cons hw hr
  have hrest : rest = [] := by
    rw [hr] at hl
    cases rest with
    | nil => rfl
    | cons a b => simp at hl
  refine ⟨hrest, http, hp, hs, ?_⟩
  simpa [backendNames, hr, hp] using hn

theorem names_one_rule {s : Ingress} {rule : IngressRule} {rest : List IngressRule}
    {http : HTTPIngressRuleValue} (hr : s.Spec.Rules = rule :: rest)
    (hp : rule.HTTP = some http) : backendNames s = http.Paths.map backendName := by
  simp [backendNames, hr, hp]

theorem count_one_of_nodup {α : Type} [BEq α] [LawfulBEq α] {a : α} :
    ∀ {l : List α}, l.Nodup → a ∈ l → l.count a = 1
  | [], _, h => by simp at h
  | x :: l, hn, h => by
    rw [List.nodup_cons] at hn
    rw [List.count_cons]
    by_cases hx : x = a
    · subst hx
      simp [List.count_eq_zero_of_not_mem hn.1]
    · have hm : a ∈ l := by
        rcases List.mem_cons.mp h with h1 | h1
        · exact absurd h1.symm hx
        · exact h1
      have hb : (x == a) = false := by simpa using hx
      simp [hb, count_one_of_nodup hn.2 hm]

theorem addPath_inv {s : Ingress} {d : Service} (hd : validationSvc d = true)
    (hinv : dataInvariant s = true) :
    ∃ s1, ingressAddPath s d = some s1 ∧ dataInvariant s1 = true ∧
      ((∀ rule ∈ s.Spec.Rules, rule.Host = getIngressHost d) →
        (backendNames s1).count (some d.Name) = 1) := by
  obtain ⟨port, ports, hports⟩ := ports_of_valid hd
  have he := build_of_ports hports
  have hn := isNamed_entryOf d port
  have hsv := service_of_named hn
  cases hr : s.Spec.Rules with
  | nil =>
    refine ⟨_, addPath_no_rule hr he, ?_, ?_⟩
    · exact @inv_one_rule _ { Host := getIngressHost d, HTTP := some { Paths := [entryOf d port] } }
        { Paths := [entryOf d port] } rfl rfl (by simp [hsv]) (by simp)
    · intro _
      simp [backendNames, backendName_of_named hn]
  | cons rule rest =>
    obtain ⟨hrest, http, hp, hs, hnd⟩ := inv_cons hinv hr
    subst hrest
    by_cases hh : rule.Host = getIngressHost d
    · rcases @scan_cases d.Name _ hs with hab | ⟨i, hi⟩
      · have hnm := not_mem_names_of_all_other hab
        refine ⟨_, addPath_absent hr hh hp hab he, ?_, ?_⟩
        · refine @inv_one_rule _
            { rule with HTTP := some { Paths := http.Paths ++ [entryOf d port] } }
            { Paths := http.Paths ++ [entryOf d port] } rfl rfl ?_ ?_
          · simp only [List.all_append, List.all_cons, List.all_nil, Bool.and_true,
              Bool.and_eq_true]
            exact ⟨hs, hsv⟩
          · rw [List.map_append, List.map_cons, List.map_nil, backendName_of_named hn]
            refine List.Nodup.append hnd (List.nodup_singleton _) ?_
            intro x hx hx1
            rw [List.mem_singleton.mp hx1] at hx
            exact hnm hx
        · intro _
          simp only [backendNames, setFirstRulePaths, List.map_append, List.map_cons,
            List.map_nil, backendName_of_named hn, List.count_append,
            List.count_eq_zero_of_not_mem hnm, List.count_singleton_self]
      · have hnames := @names_set d.Name http.Paths i (entryOf d port) hi hn
        refine ⟨_, addPath_found hr hh hp hi he, ?_, ?_⟩
        · refine @inv_one_rule _
            { rule with HTTP := some { Paths := http.Paths.set i (entryOf d port) } }
            { Paths := http.Paths.set i (entryOf d port) } rfl rfl (allService_set hs hsv) ?_
          rw [hnames]
          exact hnd
        · intro _
          simp only [backendNames, setFirstRulePaths, hnames]
          exact count_one_of_nodup hnd (List.getElem?_mem (names_at_first hi))
    · refine ⟨s, addPath_other_host hr hh, hinv, ?_⟩
      intro hall
      exact absurd (hall rule (by simp [hr])) hh

theorem removePath_inv {s : Ingress} {d : Service} (hinv : dataInvariant s = true) :
    ∃ s2, ingressRemovePath s d = some s2 ∧ dataInvariant s2 = true ∧
      ingressRemovePath s2 d = some s2 ∧
      ((∀ rule ∈ s.Spec.Rules, rule.Host = getIngressHost d) →
        (backendNames s2).count (some d.Name) = 0) := by
  cases hr : s.Spec.Rules with
  | nil =>
    refine ⟨s, removePath_no_rule hr, hinv, removePath_no_rule hr, ?_⟩
    intro _
    simp [backendNames, hr]
  | cons rule rest =>
    obtain ⟨hrest, http, hp, hs, hnd⟩ := inv_cons hinv hr
    subst hrest
    by_cases hh : rule.Host = getIngressHost d
    · rcases @scan_cases d.Name _ hs with hab | ⟨i, hi⟩
      · refine ⟨s, removePath_absent hr hp hab, hinv, removePath_absent hr hp hab, ?_⟩
        intro _
        rw [names_one_rule hr hp]
        exact List.count_eq_zero_of_not_mem (not_mem_names_of_all_other hab)
      · have hlt := firstEntryAt_lt hi
        have hother := all_other_eraseIdx http.Paths i hs hnd hi
        rw [removePath_found hr hh hp hi]
        by_cases h1 : http.Paths.length = 1
        · rw [if_pos h1]
          refine ⟨_, rfl, inv_no_rule rfl, removePath_no_rule rfl, ?_⟩
          intro _
          simp [backendNames]
        · rw [if_neg h1]
          refine ⟨_, rfl, ?_, ?_, ?_⟩
          · refine @inv_one_rule _
              { rule with HTTP := some { Paths := http.Paths.eraseIdx i } }
              { Paths := http.Paths.eraseIdx i } rfl rfl (allService_eraseIdx i hs) ?_
            exact List.Nodup.sublist ((List.eraseIdx_sublist http.Paths i).map backendName) hnd
          · exact @removePath_absent _ d
              { rule with HTTP := some { Paths := http.Paths.eraseIdx i } } []
              { Paths := http.Paths.eraseIdx i } rfl rfl hother
          · intro _
            simp only [backendNames, setFirstRulePaths]
            exact List.count_eq_zero_of_not_mem (not_mem_names_of_all_other hother)
    · refine ⟨s, removePath_other_host hr hh, hinv, removePath_other_host hr hh, ?_⟩
      intro hall
      exact absurd (hall rule (by simp [hr])) hh

/-! ## Lemmas on what the reconciler writes -/

theorem Get_snd (cli : Client) (key : NamespacedName) :
    (cli.Get key).2 = cli.record (.get key) := by
  unfold Client.Get
  cases cli.nextFault with
  | some e => rfl
  | none =>
    cases cli.find key with
    | some o => rfl
    | none => rfl

theorem Create_objs (cli : Client) (obj : Ingress) :
    ∀ x ∈ (cli.Create obj).2.objs, x ∈ cli.objs ∨ x = obj := by
  unfold Client.Create
  cases cli.nextFault with
  | some e => exact fun x hx => Or.inl hx
  | none =>
    cases cli.find obj.key with
    | some o => exact fun x hx => Or.inl hx
    | none =>
      intro x hx
      simp only [Client.record, List.mem_append, List.mem_singleton] at hx
      exact hx

theorem Update_objs (cli : Client) (obj : Ingress) :
    ∀ x ∈ (cli.Update obj).2.objs, x ∈ cli.objs ∨ x = obj := by
  unfold Client.Update
  cases cli.nextFault with
  | some e => exact fun x hx => Or.inl hx
  | none =>
    cases cli.find obj.key with
    | none => exact fun x hx => Or.inl hx
    | some o =>
      intro x hx
      simp only [Client.record, List.mem_map] at hx
      obtain ⟨y, hy, hxy⟩ := hx
      by_cases hk : y.key = obj.key
      · rw [if_pos hk] at hxy
        exact Or.inr hxy.symm
      · rw [if_neg hk] at hxy
        rw [← hxy]
        exact Or.inl hy

theorem Delete_objs (cli : Client) (obj : Ingress) :
    ∀ x ∈ (cli.Delete obj).2.objs, x ∈ cli.objs := by
  unfold Client.Delete
  cases cli.nextFault with
  | some e => exact fun x hx => hx
  | none =>
    cases cli.find obj.key with
    | none => exact fun x hx => hx
    | some o =>
      intro x hx
      simp only [Client.record, List.mem_filter] at hx
      exact hx.1

theorem hasEntry_setPaths (s : Ingress) (rule : IngressRule) (rest : List IngressRule)
    {ps : List HTTPIngressPath} (h : ps ≠ []) :
    hasEntry (setFirstRulePaths s rule rest ps) = true := by
  cases ps with
  | nil => exact absurd rfl h
  | cons p ps => rfl

theorem addPath_result {s new : Ingress} {d : Service} (h : ingressAddPath s d = some new) :
    new = s ∨ hasEntry new = true := by
  unfold ingressAddPath at h
  split at h
  · cases he : buildHTTPIngressPath d with
    | none => simp [buildIngressRuleValue, he] at h
    | some e =>
      simp only [buildIngressRuleValue, he, Option.map_some', Option.some.injEq] at h
      rw [← h]
      exact Or.inr rfl
  · rename_i rule rest hr
    split at h
    · exact Or.inl (Option.some.inj h).symm
    · split at h
      · cases h
      · rename_i http hp
        split at h
        · cases h
        · rename_i i hscan
          cases he : buildHTTPIngressPath d with
          | none => simp [he] at h
          | some e =>
            simp only [he, Option.map_some', Option.some.injEq] at h
            rw [← h]
            refine Or.inr (hasEntry_setPaths _ _ _ ?_)
            have hlt := scan_index_lt hscan
            intro hc
            have := congrArg List.length hc
            simp only [List.length_set, List.length_nil] at this
            omega
        · cases he : buildHTTPIngressPath d with
          | none => simp [he] at h
          | some e =>
            simp only [he, Option.map_some', Option.some.injEq] at h
            rw [← h]
            exact Or.inr (hasEntry_setPaths _ _ _ (by simp))

theorem removePath_result {s r : Ingress} {d : Service} (h : ingressRemovePath s d = some r) :
    r = s ∨ r.Spec.Rules = [] ∨ hasEntry r = true := by
  by_cases hnil : r.Spec.Rules = []
  · exact Or.inr (Or.inl hnil)
  · by_cases hspec : r.Spec = s.Spec
    · left
      unfold ingressRemovePath at h
      split at h
      · exact (Option.some.inj h).symm
      · split at h
        · exact (Option.some.inj h).symm
        · split at h
          · cases h
          · split at h
            · exact (Option.some.inj h).symm
            · split at h
              · cases h
              · exact (Option.some.inj h).symm
              · simp only at h
                split at h
                · cases h
                  exact absurd rfl hnil
                · cases h
                  cases s
                  simp only [setFirstRulePaths] at hspec ⊢
                  rw [hspec]
    · obtain ⟨rule, rest, http, i, _, _, _, _, hne, hr⟩ := removePath_changed h hnil hspec
      rw [hr]
      exact Or.inr (Or.inr (hasEntry_setPaths _ _ _ hne))

theorem buildNew_hasEntry {svc : Service} {obj : Ingress}
    (h : buildNewIngressWithSvc svc = some obj) : hasEntry obj = true := by
  unfold buildNewIngressWithSvc buildIngressRuleValue at h
  cases he : buildHTTPIngressPath svc with
  | none => simp [he] at h
  | some e =>
    simp only [he, Option.map_some', Option.some.injEq] at h
    rw [← h]
    rfl

theorem writes_read (cli : Client) (key : NamespacedName) :
    writesOnlyEntries cli (cli.record (.get key)) :=
  ⟨⟨[.get key], rfl, rfl⟩, fun _ hx => Or.inl hx⟩

theorem writes_create (cli : Client) (key : NamespacedName) {obj : Ingress}
    (h : hasEntry obj = true) :
    writesOnlyEntries cli ((cli.record (.get key)).Create obj).2 := by
  refine ⟨⟨[.get key, .create obj], ?_, ?_⟩, ?_⟩
  · rw [Create_calls]
    simp [Client.record]
  · simp [Call.writesEntry, h]
  · intro x hx
    rcases Create_objs _ _ x hx with h1 | h1
    · exact Or.inl h1
    · exact Or.inr (h1 ▸ h)

theorem writes_update (cli : Client) (key : NamespacedName) {obj : Ingress}
    (h : hasEntry obj = true) :
    writesOnlyEntries cli ((cli.record (.get key)).Update obj).2 := by
  refine ⟨⟨[.get key, .update obj], ?_, ?_⟩, ?_⟩
  · rw [Update_calls]
    simp [Client.record]
  · simp [Call.writesEntry, h]
  · intro x hx
    rcases Update_objs _ _ x hx with h1 | h1
    · exact Or.inl h1
    · exact Or.inr (h1 ▸ h)

theorem writes_delete (cli : Client) (key : NamespacedName) (obj : Ingress) :
    writesOnlyEntries cli ((cli.record (.get key)).Delete obj).2 := by
  refine ⟨⟨[.get key, .delete obj], ?_, ?_⟩, ?_⟩
  · rw [Delete_calls]
    simp [Client.record]
  · simp [Call.writesEntry]
  · intro x hx
    exact Or.inl (Delete_objs (cli.record (.get key)) obj x hx)

theorem writes_refl (cli : Client) : writesOnlyEntries cli cli :=
  ⟨⟨[], by simp, rfl⟩, fun _ hx => Or.inl hx⟩

theorem addPath_has_rule {s new : Ingress} {d : Service} (h : ingressAddPath s d = some new) :
    new.Spec.Rules ≠ [] := by
  rcases addPath_result h with h1 | h1
  · subst h1
    intro hnil
    simp only [ingressAddPath, hnil] at h
    cases hb : buildIngressRuleValue d with
    | none => simp [hb] at h
    | some v =>
      simp only [hb, Option.map_some', Option.some.injEq] at h
      have := congrArg (fun x => x.Spec.Rules) h
      simp [hnil] at this
  · intro hnil
    simp [hasEntry, hnil] at h1

theorem Get_cases (cli : Client) (key : NamespacedName) :
    ∃ r, cli.Get key = (r, cli.record (.get key)) :=
  ⟨(cli.Get key).1, by rw [← Get_snd]⟩

theorem AddFunc_writes {cli cli1 : Client} {svc : Service} {err : Option StoreErr}
    (h : AddFunc cli svc = some (err, cli1)) : writesOnlyEntries cli cli1 := by
  unfold AddFunc at h
  obtain ⟨r, hg⟩ := Get_cases cli { Name := getIngressName svc, Namespace := svc.Namespace }
  rw [hg] at h
  cases r with
  | error e =>
    simp only at h
    split at h
    · cases h
      exact writes_read _ _
    · cases hb : buildNewIngressWithSvc svc with
      | none => simp [hb] at h
      | some ingress =>
        simp only [hb, Option.some.injEq] at h
        obtain rfl : cli1 = _ := (congrArg Prod.snd h).symm
        exact writes_create _ _ (buildNew_hasEntry hb)
  | ok ingress =>
    simp only at h
    cases ha : ingressAddPath ingress svc with
    | none => simp [ha] at h
    | some newIngress =>
      simp only [ha] at h
      split at h
      · cases h
        exact writes_read _ _
      · rename_i hne
        simp only [Option.some.injEq] at h
        obtain rfl : cli1 = _ := (congrArg Prod.snd h).symm
        refine writes_update _ _ ?_
        rcases addPath_result ha with h1 | h1
        · exact absurd (by rw [h1]) hne
        · exact h1

theorem UpdateFunc_writes {cli cli1 : Client} {oldSvc newSvc : Service}
    {err : Option StoreErr} (h : UpdateFunc cli oldSvc newSvc = some (err, cli1)) :
    writesOnlyEntries cli cli1 := by
  unfold UpdateFunc at h
  split at h
  · cases h
    exact writes_refl _
  · obtain ⟨r, hg⟩ :=
      Get_cases cli { Name := getIngressName newSvc, Namespace := newSvc.Namespace }
    rw [hg] at h
    cases r with
    | error e =>
      simp only at h
      split at h
      · cases h
        exact writes_read _ _
      · cases hb : buildNewIngressWithSvc newSvc with
        | none => simp [hb] at h
        | some ingress =>
          simp only [hb, Option.some.injEq] at h
          obtain rfl : cli1 = _ := (congrArg Prod.snd h).symm
          exact writes_create _ _ (buildNew_hasEntry hb)
    | ok ingress =>
      simp only at h
      cases hrm : ingressRemovePath ingress oldSvc with
      | none => simp [hrm] at h
      | some removed =>
        cases ha : ingressAddPath removed newSvc with
        | none => simp [hrm, ha] at h
        | some newIngress =>
          simp only [hrm, ha, Option.some_bind] at h
          split at h
          · cases h
            exact writes_read _ _
          · rename_i hne
            simp only [Option.some.injEq] at h
            obtain rfl : cli1 = _ := (congrArg Prod.snd h).symm
            refine writes_update _ _ ?_
            rcases addPath_result ha with h1 | h1
            · rcases removePath_result hrm with h2 | h2 | h2
              · exact absurd (by rw [h1, h2]) hne
              · exact absurd (h1 ▸ h2) (addPath_has_rule ha)
              · exact h1 ▸ h2
            · exact h1

theorem DeleteFunc_writes {cli cli1 : Client} {svc : Service} {err : Option StoreErr}
    (h : DeleteFunc cli svc = some (err, cli1)) : writesOnlyEntries cli cli1 := by
  unfold DeleteFunc at h
  obtain ⟨r, hg⟩ := Get_cases cli { Name := getIngressName svc, Namespace := svc.Namespace }
  rw [hg] at h
  cases r with
  | error e =>
    simp only at h
    split at h
    · cases h
      exact writes_read _ _
    · cases h
      exact writes_read _ _
  | ok ingress =>
    simp only at h
    cases hrm : ingressRemovePath ingress svc with
    | none => simp [hrm] at h
    | some newIngress =>
      simp only [hrm] at h
      split at h
      · simp only [Option.some.injEq] at h
        obtain rfl : cli1 = _ := (congrArg Prod.snd h).symm
        exact writes_delete _ _ _
      · rename_i hlen
        split at h
        · cases h
          exact writes_read _ _
        · rename_i hne
          simp only [Option.some.injEq] at h
          obtain rfl : cli1 = _ := (congrArg Prod.snd h).symm
          refine writes_update _ _ ?_
          rcases removePath_result hrm with h2 | h2 | h2
          · exact absurd (by rw [h2]) hne
          · exact absurd (by rw [h2]; rfl) hlen
          · exact h2

theorem writes_keep_invariant {cli cli1 : Client} (h : writesOnlyEntries cli cli1)
    (hinv : (∀ o ∈ cli.objs, hasEntry o = true) ∧ cli.calls.all Call.writesEntry = true) :
    (∀ o ∈ cli1.objs, hasEntry o = true) ∧ cli1.calls.all Call.writesEntry = true := by
  obtain ⟨⟨new, hc, hw⟩, ho⟩ := h
  refine ⟨?_, ?_⟩
  · intro o hm
    rcases ho o hm with h1 | h1
    · exact hinv.1 o h1
    · exact h1
  · rw [hc, List.all_append, hinv.2, hw]
    rfl

theorem reachable_invariant {cli : Client} (h : Reachable cli) :
    (∀ o ∈ cli.objs, hasEntry o = true) ∧ cli.calls.all Call.writesEntry = true := by
  induction h with
  | empty faults => exact ⟨fun o ho => by simp at ho, rfl⟩
  | script cli faults _ ih => exact ih
  | add cli cli1 svc err _ _ hrun ih => exact writes_keep_invariant (AddFunc_writes hrun) ih
  | update cli cli1 oldSvc newSvc err _ _ _ hrun ih =>
    exact writes_keep_invariant (UpdateFunc_writes hrun) ih
  | delete cli cli1 svc err _ _ hrun ih =>
    exact writes_keep_invariant (DeleteFunc_writes hrun) ih

/-- C19: the reconciler never stores a derived object without entry. For every
store state and every run of `AddFunc`, `UpdateFunc` or `DeleteFunc` that
returns, each object the run passes to `Create` or `Update` has a first rule
with at least one path entry, so a merge result without rule is passed to
`Delete` only, and every object the store holds afterwards was stored before
or has an entry. Hence in every store state reachable from the empty store by
runs on validated source objects, every stored object has at least one entry,
and so had every object ever passed to `Create` or `Update`. -/
theorem reconciler_writes_only_entries :
    (∀ cli cli1 svc err, AddFunc cli svc = some (err, cli1) → writesOnlyEntries cli cli1) ∧
      (∀ cli cli1 oldSvc newSvc err, UpdateFunc cli oldSvc newSvc = some (err, cli1) →
        writesOnlyEntries cli cli1) ∧
      (∀ cli cli1 svc err, DeleteFunc cli svc = some (err, cli1) →
        writesOnlyEntries cli cli1) ∧
      ∀ cli, Reachable cli →
        (∀ o ∈ cli.objs, hasEntry o = true) ∧ cli.calls.all Call.writesEntry = true :=
  ⟨fun _ _ _ _ h => AddFunc_writes h, fun _ _ _ _ _ h => UpdateFunc_writes h,
    fun _ _ _ _ h => DeleteFunc_writes h, fun _ h => reachable_invariant h⟩

/-- Witness of C19: the store reached from the empty store by adding source A
and then source B. -/
theorem reconciler_writes_only_entries_witness :
    AddFunc (storeOf []) svcA = some (none,
        { objs := [ingressFoo [entryA]], faults := [],
          calls := [.get { Namespace := "default", Name := "foo-bar-com" },
            .create (ingressFoo [entryA])] }) ∧
      writesOnlyEntries (storeOf [])
        { objs := [ingressFoo [entryA]], faults := [],
          calls := [.get { Namespace := "default", Name := "foo-bar-com" },
            .create (ingressFoo [entryA])] } ∧
      ∀ o ∈ [ingressFoo [entryA]], hasEntry o = true :=
  have hrun : AddFunc (storeOf []) svcA = some (none,
      { objs := [ingressFoo [entryA]], faults := [],
        calls := [.get { Namespace := "default", Name := "foo-bar-com" },
          .create (ingressFoo [entryA])] }) := by decide
  ⟨hrun, reconciler_writes_only_entries.1 _ _ _ _ hrun,
    (reconciler_writes_only_entries.2.2.2 _
      (Reachable.add _ _ svcA none (Reachable.empty []) (by decide) hrun)).1⟩


/-! ## Lemmas on successful writes and the following read -/

theorem find_key {cli : Client} {key : NamespacedName} {obj : Ingress}
    (h : cli.find key = some obj) : obj.key = key ∧ obj ∈ cli.objs := by
  unfold Client.find at h
  have h1 := List.find?_some h
  exact ⟨by simpa using h1, List.mem_of_find?_eq_some h⟩

theorem find_append_new {objs : List Ingress} {key : NamespacedName} {obj : Ingress}
    (h : objs.find? (fun o => o.key = key) = none) (hk : obj.key = key) :
    (objs ++ [obj]).find? (fun o => o.key = key) = some obj := by
  rw [List.find?_append, h]
  simp [hk]

theorem find_map_replace {key : NamespacedName} {obj : Ingress} (hk : obj.key = key) :
    ∀ (objs : List Ingress) (o : Ingress), objs.find? (fun o => o.key = key) = some o →
      (objs.map fun o => if o.key = obj.key then obj else o).find? (fun o => o.key = key) =
        some obj
  | [], _, h => by simp at h
  | x :: objs, o, h => by
    by_cases hx : x.key = key
    · simp [hx, hk]
    · have hx2 : ¬ x.key = obj.key := by rw [hk]; exact hx
      simp only [List.find?_cons, hx, decide_False] at h
      simp only [List.map_cons, hx2, if_false, List.find?_cons, hx, decide_False]
      exact find_map_replace hk objs o h

theorem find_filter_removed (key : NamespacedName) (objs : List Ingress) :
    (objs.filter fun o => o.key ≠ key).find? (fun o => o.key = key) = none := by
  rw [List.find?_eq_none]
  intro x hx
  have := (List.mem_filter.mp hx).2
  simpa using this

theorem Create_success {cli cli1 : Client} {obj : Ingress}
    (h : cli.Create obj = (none, cli1)) :
    cli.find obj.key = none ∧ cli1.objs = cli.objs ++ [obj] := by
  unfold Client.Create at h
  cases hf : cli.nextFault with
  | some e => simp [hf] at h
  | none =>
    cases hfind : cli.find obj.key with
    | some o => simp [hf, hfind] at h
    | none =>
      simp only [hf, hfind, Prod.mk.injEq, true_and] at h
      rw [← h]
      exact ⟨rfl, rfl⟩

theorem Update_success {cli cli1 : Client} {obj : Ingress}
    (h : cli.Update obj = (none, cli1)) :
    (∃ o, cli.find obj.key = some o) ∧
      cli1.objs = cli.objs.map fun o => if o.key = obj.key then obj else o := by
  unfold Client.Update at h
  cases hf : cli.nextFault with
  | some e => simp [hf] at h
  | none =>
    cases hfind : cli.find obj.key with
    | none => simp [hf, hfind] at h
    | some o =>
      simp only [hf, hfind, Prod.mk.injEq, true_and] at h
      rw [← h]
      exact ⟨⟨o, rfl⟩, rfl⟩

theorem Delete_success {cli cli1 : Client} {obj : Ingress}
    (h : cli.Delete obj = (none, cli1)) :
    cli1.objs = cli.objs.filter fun o => o.key ≠ obj.key := by
  unfold Client.Delete at h
  cases hf : cli.nextFault with
  | some e => simp [hf] at h
  | none =>
    cases hfind : cli.find obj.key with
    | none => simp [hf, hfind] at h
    | some o =>
      simp only [hf, hfind, Prod.mk.injEq, true_and] at h
      rw [← h]

theorem find_after_create {cli cli1 : Client} {key : NamespacedName} {obj : Ingress}
    (h : (cli.record (.get key)).Create obj = (none, cli1)) (hk : obj.key = key) :
    cli1.find key = some obj := by
  obtain ⟨h1, h2⟩ := Create_success h
  unfold Client.find at h1 ⊢
  rw [h2]
  rw [hk] at h1
  exact find_append_new h1 hk

theorem find_after_update {cli cli1 : Client} {key : NamespacedName} {obj : Ingress}
    (h : (cli.record (.get key)).Update obj = (none, cli1)) (hk : obj.key = key) :
    cli1.find key = some obj := by
  obtain ⟨⟨o, h1⟩, h2⟩ := Update_success h
  unfold Client.find at h1 ⊢
  rw [h2]
  rw [hk] at h1
  exact find_map_replace hk _ o h1

theorem find_after_delete {cli cli1 : Client} {key : NamespacedName} {obj : Ingress}
    (h : (cli.record (.get key)).Delete obj = (none, cli1)) (hk : obj.key = key) :
    cli1.find key = none := by
  have h2 := Delete_success h
  unfold Client.find
  rw [h2, hk]
  exact find_filter_removed key _

theorem readsOnly_get (cli : Client) (key : NamespacedName) :
    readsOnly cli (cli.record (.get key)) :=
  ⟨rfl, [.get key], rfl, rfl⟩

theorem readsOnly_refl (cli : Client) : readsOnly cli cli :=
  ⟨rfl, [], by simp, rfl⟩

theorem addPath_key {s s1 : Ingress} {d : Service} (h : ingressAddPath s d = some s1) :
    s1.key = s.key := by
  unfold ingressAddPath at h
  split at h
  · cases hb : buildIngressRuleValue d with
    | none => simp [hb] at h
    | some v =>
      simp only [hb, Option.map_some', Option.some.injEq] at h
      rw [← h]
      rfl
  · split at h
    · rw [Option.some.inj h]
    · split at h
      · cases h
      · cases he : buildHTTPIngressPath d with
        | none =>
          simp only [he, Option.map_none'] at h
          split at h <;> cases h
        | some e =>
          split at h
          · cases h
          · simp only [he, Option.map_some', Option.some.injEq] at h
            rw [← h]
            rfl
          · simp only [he, Option.map_some', Option.some.injEq] at h
            rw [← h]
            rfl

theorem removePath_key {s s1 : Ingress} {d : Service} (h : ingressRemovePath s d = some s1) :
    s1.key = s.key := by
  unfold ingressRemovePath at h
  split at h
  · rw [Option.some.inj h]
  · split at h
    · rw [Option.some.inj h]
    · split at h
      · cases h
      · split at h
        · rw [Option.some.inj h]
        · split at h
          · cases h
          · rw [Option.some.inj h]
          · simp only at h
            split at h
            · rw [← Option.some.inj h]
              rfl
            · rw [← Option.some.inj h]
              rfl

/-! ## Lemmas on repeated merges -/

theorem wellFormed_of_inv {s : Ingress} (h : dataInvariant s = true) : wellFormed s = true := by
  simp only [dataInvariant, Bool.and_eq_true] at h
  exact h.1.1

theorem addPath_idem {s s1 : Ingress} {d : Service} (hd : validationSvc d = true)
    (hs : wellFormed s = true) (h : ingressAddPath s d = some s1) :
    ingressAddPath s1 d = some s1 := by
  obtain ⟨port, ports, hports⟩ := ports_of_valid hd
  have he := build_of_ports hports
  have hn := isNamed_entryOf d port
  cases hr : s.Spec.Rules with
  | nil =>
    rw [addPath_no_rule hr he] at h
    cases h
    have hi : firstEntryAt d.Name [entryOf d port] 0 = true := by
      simp [firstEntryAt, hn]
    rw [addPath_found rfl rfl rfl hi he]
    rfl
  | cons rule rest =>
    by_cases hh : rule.Host = getIngressHost d
    · obtain ⟨http, hp, hsome⟩ := wellFormed_cons hs hr
      rcases @scan_cases d.Name _ hsome with hab | ⟨i, hi⟩
      · rw [addPath_absent hr hh hp hab he] at h
        cases h
        have hi2 := firstEntryAt_append hab hn
        rw [@addPath_found _ d { rule with HTTP := some { Paths := http.Paths ++ [entryOf d port] } }
          rest { Paths := http.Paths ++ [entryOf d port] } _ _ rfl hh rfl hi2 he]
        simp [setFirstRulePaths]
      · rw [addPath_found hr hh hp hi he] at h
        cases h
        have hi2 := firstEntryAt_set hi hn
        rw [@addPath_found _ d { rule with HTTP := some { Paths := http.Paths.set i (entryOf d port) } }
          rest { Paths := http.Paths.set i (entryOf d port) } _ _ rfl hh rfl hi2 he]
        simp [setFirstRulePaths, List.set_set]
    · rw [addPath_other_host hr hh] at h
      cases h
      exact addPath_other_host hr hh

theorem removePath_congr (s : Ingress) {d1 d2 : Service}
    (hh : getIngressHost d1 = getIngressHost d2) (hn : d1.Name = d2.Name) :
    ingressRemovePath s d1 = ingressRemovePath s d2 := by
  unfold ingressRemovePath
  rw [hh, hn]

theorem removePath_fix_all_other {s : Ingress} {d : Service} {rule : IngressRule}
    {rest : List IngressRule} {http : HTTPIngressRuleValue}
    (hr : s.Spec.Rules = rule :: rest) (hh : rule.Host = getIngressHost d)
    (hp : rule.HTTP = some http)
    (hs : (http.Paths.all fun p => p.Backend.Service.isSome) = true)
    (hfix : ingressRemovePath s d = some s) : http.Paths.all (isOther d.Name) = true := by
  rcases @scan_cases d.Name _ hs with hab | ⟨i, hi⟩
  · exact hab
  · exfalso
    rw [removePath_found hr hh hp hi] at hfix
    have hlt := firstEntryAt_lt hi
    by_cases h1 : http.Paths.length = 1
    · simp only [h1, if_true, Option.some.injEq] at hfix
      have := congrArg (fun x => x.Spec.Rules) hfix
      simp [hr] at this
    · simp only [h1, if_false, Option.some.injEq] at hfix
      have := congrArg (fun x => x.Spec.Rules) hfix
      simp only [setFirstRulePaths, hr, List.cons.injEq, and_true] at this
      have h2 := congrArg (fun r => r.HTTP.map fun v => v.Paths.length) this
      simp [hp, List.length_eraseIdx_of_lt hlt] at h2
      omega

theorem eraseIdx_append_last (ps : List HTTPIngressPath) (e : HTTPIngressPath) :
    (ps ++ [e]).eraseIdx ps.length = ps := by
  induction ps with
  | nil => rfl
  | cons p ps ih => simp [ih]

theorem remove_add_fix {r m : Ingress} {d : Service} (hd : validationSvc d = true)
    (hinv : dataInvariant r = true) (hfix : ingressRemovePath r d = some r)
    (hadd : ingressAddPath r d = some m) :
    ∃ r2, ingressRemovePath m d = some r2 ∧ ingressAddPath r2 d = some m := by
  obtain ⟨port, ports, hports⟩ := ports_of_valid hd
  have he := build_of_ports hports
  have hn := isNamed_entryOf d port
  cases hr : r.Spec.Rules with
  | nil =>
    rw [addPath_no_rule hr he] at hadd
    cases hadd
    have hi : firstEntryAt d.Name [entryOf d port] 0 = true := by
      simp [firstEntryAt, hn]
    rw [@removePath_found _ d { Host := getIngressHost d, HTTP := some { Paths := [entryOf d port] } }
      [] { Paths := [entryOf d port] } 0 rfl rfl rfl hi]
    refine ⟨_, rfl, ?_⟩
    rw [addPath_no_rule rfl he]
  | cons rule rest =>
    obtain ⟨hrest, http, hp, hs, hnd⟩ := inv_cons hinv hr
    subst hrest
    by_cases hh : rule.Host = getIngressHost d
    · have hab := removePath_fix_all_other hr hh hp hs hfix
      rw [addPath_absent hr hh hp hab he] at hadd
      cases hadd
      have hi2 := firstEntryAt_append hab hn
      rw [@removePath_found _ d
        { rule with HTTP := some { Paths := http.Paths ++ [entryOf d port] } } []
        { Paths := http.Paths ++ [entryOf d port] } http.Paths.length rfl hh rfl hi2]
      by_cases hl : (http.Paths ++ [entryOf d port]).length = 1
      · have hps : http.Paths = [] := by
          simp only [List.length_append, List.length_singleton, add_left_eq_self] at hl
          exact List.length_eq_zero.mp hl
        simp only [hl, if_true]
        refine ⟨_, rfl, ?_⟩
        rw [addPath_no_rule rfl he]
        simp [setFirstRulePaths, hps, hh]
      · simp only [hl, if_false, eraseIdx_append_last]
        refine ⟨_, rfl, ?_⟩
        rw [@addPath_absent _ d { rule with HTTP := some { Paths := http.Paths } } []
          { Paths := http.Paths } _ rfl hh rfl hab he]
        simp [setFirstRulePaths]
    · rw [addPath_other_host hr hh] at hadd
      cases hadd
      exact ⟨r, hfix, addPath_other_host hr hh⟩

theorem remove_other_host_after_add {r m : Ingress} {oldSvc newSvc : Service}
    (hd : validationSvc newSvc = true) (hinv : dataInvariant r = true)
    (hne : getIngressHost oldSvc ≠ getIngressHost newSvc)
    (hfix : ingressRemovePath r oldSvc = some r) (hadd : ingressAddPath r newSvc = some m) :
    ingressRemovePath m oldSvc = some m := by
  obtain ⟨port, ports, hports⟩ := ports_of_valid hd
  have he := build_of_ports hports
  cases hr : r.Spec.Rules with
  | nil =>
    rw [addPath_no_rule hr he] at hadd
    cases hadd
    exact @removePath_other_host _ oldSvc
      { Host := getIngressHost newSvc, HTTP := some { Paths := [entryOf newSvc port] } } [] rfl
      (Ne.symm hne)
  | cons rule rest =>
    obtain ⟨hrest, http, hp, hs, hnd⟩ := inv_cons hinv hr
    subst hrest
    by_cases hh : rule.Host = getIngressHost newSvc
    · have hho : rule.Host ≠ getIngressHost oldSvc := by
        rw [hh]
        exact Ne.symm hne
      rcases @scan_cases newSvc.Name _ hs with hab | ⟨i, hi⟩
      · rw [addPath_absent hr hh hp hab he] at hadd
        cases hadd
        exact @removePath_other_host _ oldSvc
          { rule with HTTP := some { Paths := http.Paths ++ [entryOf newSvc port] } } [] rfl hho
      · rw [addPath_found hr hh hp hi he] at hadd
        cases hadd
        exact @removePath_other_host _ oldSvc
          { rule with HTTP := some { Paths := http.Paths.set i (entryOf newSvc port) } } [] rfl hho
    · rw [addPath_other_host hr hh] at hadd
      cases hadd
      exact hfix

theorem update_transform_fix {r m : Ingress} {oldSvc newSvc : Service}
    (hd : validationSvc newSvc = true) (hname : oldSvc.Name = newSvc.Name)
    (hinv : dataInvariant r = true) (hfix : ingressRemovePath r oldSvc = some r)
    (hadd : ingressAddPath r newSvc = some m) :
    ((ingressRemovePath m oldSvc).bind fun removed => ingressAddPath removed newSvc) = some m := by
  by_cases hh : getIngressHost oldSvc = getIngressHost newSvc
  · rw [removePath_congr m hh hname]
    have hfix2 : ingressRemovePath r newSvc = some r := by
      rw [← removePath_congr r hh hname]
      exact hfix
    obtain ⟨r2, h1, h2⟩ := remove_add_fix hd hinv hfix2 hadd
    rw [h1]
    exact h2
  · rw [remove_other_host_after_add hd hinv hh hfix hadd]
    exact addPath_idem hd (wellFormed_of_inv hinv) hadd

/-! ## Redelivery of an event -/

theorem AddFunc_skip {cli : Client} {svc : Service} {ing new : Ingress}
    (hf : cli.nextFault = none)
    (hfind : cli.find { Namespace := svc.Namespace, Name := getIngressName svc } = some ing)
    (hadd : ingressAddPath ing svc = some new) (hs : new.Spec = ing.Spec) :
    AddFunc cli svc =
      some (none, cli.record (.get { Namespace := svc.Namespace, Name := getIngressName svc })) := by
  unfold AddFunc
  rw [Get_present hf hfind]
  simp only [hadd]
  rw [if_pos hs]

theorem UpdateFunc_skip {cli : Client} {oldSvc newSvc : Service} {ing new : Ingress}
    (hlab : oldSvc.Labels.index svcDomainAnnotationKey = newSvc.Labels.index svcDomainAnnotationKey)
    (hf : cli.nextFault = none)
    (hfind : cli.find { Namespace := newSvc.Namespace, Name := getIngressName newSvc } = some ing)
    (hmerge : ((ingressRemovePath ing oldSvc).bind fun removed =>
      ingressAddPath removed newSvc) = some new)
    (hs : new.Spec = ing.Spec) :
    UpdateFunc cli oldSvc newSvc =
      some (none,
        cli.record (.get { Namespace := newSvc.Namespace, Name := getIngressName newSvc })) := by
  unfold UpdateFunc
  rw [if_neg (not_not.mpr hlab), Get_present hf hfind]
  simp only [hmerge]
  rw [if_pos hs]

theorem DeleteFunc_skip {cli : Client} {svc : Service} {ing new : Ingress}
    (hf : cli.nextFault = none)
    (hfind : cli.find { Namespace := svc.Namespace, Name := getIngressName svc } = some ing)
    (hrem : ingressRemovePath ing svc = some new) (hne : new.Spec.Rules ≠ [])
    (hs : new.Spec = ing.Spec) :
    DeleteFunc cli svc =
      some (none, cli.record (.get { Namespace := svc.Namespace, Name := getIngressName svc })) := by
  have hlen : ¬ new.Spec.Rules.length = 0 := fun h0 => hne (List.length_eq_zero.mp h0)
  unfold DeleteFunc
  rw [Get_present hf hfind]
  simp only [hrem]
  rw [if_neg hlen, if_pos hs]

theorem DeleteFunc_absent {cli : Client} {svc : Service} (hf : cli.nextFault = none)
    (hfind : cli.find { Namespace := svc.Namespace, Name := getIngressName svc } = none) :
    DeleteFunc cli svc =
      some (none, cli.record (.get { Namespace := svc.Namespace, Name := getIngressName svc })) := by
  simp [DeleteFunc, Get_absent hf hfind]

theorem buildNew_of_ports {svc : Service} {port : ServicePort} {ports : List ServicePort}
    (h : svc.Spec.Ports = port :: ports) :
    buildNewIngressWithSvc svc =
      some { Name := getIngressName svc, Namespace := svc.Namespace
             Annotations := [(AnnotationIngressClass, ingressClassName),
               (ingressDomainAnnotationsKey, getIngressHost svc)]
             Spec := { Rules := [{ Host := getIngressHost svc,
                                   HTTP := some { Paths := [entryOf svc port] } }] } } := by
  simp [buildNewIngressWithSvc, buildIngressRuleValue, build_of_ports h]

theorem buildNew_is_add {svc : Service} {ingress : Ingress} (hd : validationSvc svc = true)
    (hb : buildNewIngressWithSvc svc = some ingress) :
    ingress.key = { Namespace := svc.Namespace, Name := getIngressName svc } ∧
      dataInvariant { ingress with Spec := { Rules := [] } } = true ∧
      ingressRemovePath { ingress with Spec := { Rules := [] } } svc =
        some { ingress with Spec := { Rules := [] } } ∧
      ingressAddPath { ingress with Spec := { Rules := [] } } svc = some ingress := by
  obtain ⟨port, ports, hports⟩ := ports_of_valid hd
  rw [buildNew_of_ports hports] at hb
  cases hb
  refine ⟨rfl, inv_no_rule rfl, removePath_no_rule rfl, ?_⟩
  rw [addPath_no_rule rfl (build_of_ports hports)]

theorem AddFunc_redelivery {cli cli1 : Client} {svc : Service} (hd : validationSvc svc = true)
    (hinv : ∀ o ∈ cli.objs, dataInvariant o = true) (hf : cli.nextFault = none)
    (hrun : AddFunc cli svc = some (none, cli1)) (hf1 : cli1.nextFault = none) :
    AddFunc cli1 svc =
      some (none, cli1.record (.get { Namespace := svc.Namespace, Name := getIngressName svc })) := by
  cases hfind : cli.find { Namespace := svc.Namespace, Name := getIngressName svc } with
  | none =>
    unfold AddFunc at hrun
    rw [Get_absent hf hfind] at hrun
    simp only [ne_eq, not_true_eq_false, if_false] at hrun
    cases hb : buildNewIngressWithSvc svc with
    | none => simp [hb] at hrun
    | some ingress =>
      simp only [hb, Option.some.injEq] at hrun
      obtain ⟨hk, hi0, _, hadd0⟩ := buildNew_is_add hd hb
      have hfind1 := find_after_create hrun hk
      have hadd := addPath_idem hd (wellFormed_of_inv hi0) hadd0
      exact AddFunc_skip hf1 hfind1 hadd rfl
  | some ing =>
    obtain ⟨hk, hmem⟩ := find_key hfind
    have hw := wellFormed_of_inv (hinv ing hmem)
    obtain ⟨new, hadd⟩ := addPath_total hd hw
    unfold AddFunc at hrun
    rw [Get_present hf hfind] at hrun
    simp only [hadd] at hrun
    by_cases hs : new.Spec = ing.Spec
    · rw [if_pos hs] at hrun
      cases hrun
      exact AddFunc_skip hf1 hfind hadd hs
    · rw [if_neg hs] at hrun
      simp only [Option.some.injEq] at hrun
      have hfind1 := find_after_update hrun ((addPath_key hadd).trans hk)
      exact AddFunc_skip hf1 hfind1 (addPath_idem hd hw hadd) rfl

theorem DeleteFunc_redelivery {cli cli1 : Client} {svc : Service}
    (hinv : ∀ o ∈ cli.objs, dataInvariant o = true) (hf : cli.nextFault = none)
    (hrun : DeleteFunc cli svc = some (none, cli1)) (hf1 : cli1.nextFault = none) :
    DeleteFunc cli1 svc =
      some (none, cli1.record (.get { Namespace := svc.Namespace, Name := getIngressName svc })) := by
  cases hfind : cli.find { Namespace := svc.Namespace, Name := getIngressName svc } with
  | none =>
    rw [DeleteFunc_absent hf hfind] at hrun
    cases hrun
    exact DeleteFunc_absent hf1 hfind
  | some ing =>
    obtain ⟨hk, hmem⟩ := find_key hfind
    obtain ⟨new, hrem, hinew, hfix, _⟩ := @removePath_inv ing svc (hinv ing hmem)
    unfold DeleteFunc at hrun
    rw [Get_present hf hfind] at hrun
    simp only [hrem] at hrun
    by_cases hl : new.Spec.Rules.length = 0
    · rw [if_pos hl] at hrun
      simp only [Option.some.injEq] at hrun
      have hfind1 := find_after_delete hrun ((removePath_key hrem).trans hk)
      exact DeleteFunc_absent hf1 hfind1
    · have hne : new.Spec.Rules ≠ [] := fun h0 => hl (by rw [h0]; rfl)
      rw [if_neg hl] at hrun
      by_cases hs : new.Spec = ing.Spec
      · rw [if_pos hs] at hrun
        cases hrun
        exact DeleteFunc_skip hf1 hfind hrem hne hs
      · rw [if_neg hs] at hrun
        simp only [Option.some.injEq] at hrun
        have hfind1 := find_after_update hrun ((removePath_key hrem).trans hk)
        exact DeleteFunc_skip hf1 hfind1 hfix hne rfl

theorem UpdateFunc_redelivery {cli cli1 : Client} {oldSvc newSvc : Service}
    (hd : validationSvc newSvc = true) (hname : oldSvc.Name = newSvc.Name)
    (hlab : oldSvc.Labels.index svcDomainAnnotationKey = newSvc.Labels.index svcDomainAnnotationKey)
    (hinv : ∀ o ∈ cli.objs, dataInvariant o = true) (hf : cli.nextFault = none)
    (hrun : UpdateFunc cli oldSvc newSvc = some (none, cli1)) (hf1 : cli1.nextFault = none) :
    UpdateFunc cli1 oldSvc newSvc =
      some (none,
        cli1.record (.get { Namespace := newSvc.Namespace, Name := getIngressName newSvc })) := by
  cases hfind : cli.find { Namespace := newSvc.Namespace, Name := getIngressName newSvc } with
  | none =>
    unfold UpdateFunc at hrun
    rw [if_neg (not_not.mpr hlab), Get_absent hf hfind] at hrun
    simp only [ne_eq, not_true_eq_false, if_false] at hrun
    cases hb : buildNewIngressWithSvc newSvc with
    | none => simp [hb] at hrun
    | some ingress =>
      simp only [hb, Option.some.injEq] at hrun
      obtain ⟨hk, hi0, _, hadd0⟩ := buildNew_is_add hd hb
      have hfind1 := find_after_create hrun hk
      have hmerge := update_transform_fix hd hname hi0 (removePath_no_rule rfl) hadd0
      exact UpdateFunc_skip hlab hf1 hfind1 hmerge rfl
  | some ing =>
    obtain ⟨hk, hmem⟩ := find_key hfind
    obtain ⟨r, hrem, hir, hfix, _⟩ := @removePath_inv ing oldSvc (hinv ing hmem)
    obtain ⟨m, hadd⟩ := addPath_total hd (wellFormed_of_inv hir)
    have hmerge : ((ingressRemovePath ing oldSvc).bind fun removed =>
        ingressAddPath removed newSvc) = some m := by
      rw [hrem]
      exact hadd
    unfold UpdateFunc at hrun
    rw [if_neg (not_not.mpr hlab), Get_present hf hfind] at hrun
    simp only [hmerge] at hrun
    by_cases hs : m.Spec = ing.Spec
    · rw [if_pos hs] at hrun
      cases hrun
      exact UpdateFunc_skip hlab hf1 hfind hmerge hs
    · rw [if_neg hs] at hrun
      simp only [Option.some.injEq] at hrun
      have hfind1 := find_after_update hrun
        (((addPath_key hadd).trans (removePath_key hrem)).trans hk)
      exact UpdateFunc_skip hlab hf1 hfind1
        (update_transform_fix hd hname hir hfix hadd) rfl

/-- C13 as amended: redelivery of an event is a no-op on stores of the data
model. For each of `AddFunc`, `UpdateFunc` and `DeleteFunc`, for every store
whose objects have at most one rule and pairwise distinct `backendName`
values and in which each rule carries a path list whose entries all route
to a service, and every validated event (for an update the old and the new
object carry the same name), when the store answers the read
and the run succeeds leaving the client `cli1`, the same run on `cli1`, with
its read answered, succeeds again, issues no `Create`, `Update` or `Delete`
and leaves the stored objects unchanged. -/
theorem redelivery_is_noop :
    (∀ (cli cli1 : Client) (svc : Service), validationSvc svc = true →
        (∀ o ∈ cli.objs, dataInvariant o = true) → cli.nextFault = none →
        AddFunc cli svc = some (none, cli1) → cli1.nextFault = none →
        ∃ cli2, AddFunc cli1 svc = some (none, cli2) ∧ readsOnly cli1 cli2) ∧
      (∀ (cli cli1 : Client) (oldSvc newSvc : Service), validationSvc oldSvc = true →
        validationSvc newSvc = true → oldSvc.Name = newSvc.Name →
        (∀ o ∈ cli.objs, dataInvariant o = true) → cli.nextFault = none →
        UpdateFunc cli oldSvc newSvc = some (none, cli1) → cli1.nextFault = none →
        ∃ cli2, UpdateFunc cli1 oldSvc newSvc = some (none, cli2) ∧ readsOnly cli1 cli2) ∧
      (∀ (cli cli1 : Client) (svc : Service), validationSvc svc = true →
        (∀ o ∈ cli.objs, dataInvariant o = true) → cli.nextFault = none →
        DeleteFunc cli svc = some (none, cli1) → cli1.nextFault = none →
        ∃ cli2, DeleteFunc cli1 svc = some (none, cli2) ∧ readsOnly cli1 cli2) := by
  refine ⟨?_, ?_, ?_⟩
  · intro cli cli1 svc hd hinv hf hrun hf1
    exact ⟨_, AddFunc_redelivery hd hinv hf hrun hf1, readsOnly_get _ _⟩
  · intro cli cli1 oldSvc newSvc _ hd hname hinv hf hrun hf1
    by_cases hlab : oldSvc.Labels.index svcDomainAnnotationKey =
        newSvc.Labels.index svcDomainAnnotationKey
    · exact ⟨_, UpdateFunc_redelivery hd hname hlab hinv hf hrun hf1, readsOnly_get _ _⟩
    · refine ⟨cli1, ?_, readsOnly_refl _⟩
      unfold UpdateFunc
      rw [if_pos hlab]
  · intro cli cli1 svc _ hinv hf hrun hf1
    exact ⟨_, DeleteFunc_redelivery hinv hf hrun hf1, readsOnly_get _ _⟩

/-- Witness of C13 as amended: the update of A's path on the store holding the entries
A, B, delivered a second time. -/
theorem redelivery_is_noop_witness :
    UpdateFunc (storeOf [ingressFoo [entryA, entryB]]) svcA svcA1 =
        some (none,
          { objs := [ingressFoo [entryB, entryA1]], faults := [],
            calls := [.get { Namespace := "default", Name := "foo-bar-com" },
              .update (ingressFoo [entryB, entryA1])] }) ∧
      ∃ cli2,
        UpdateFunc
            { objs := [ingressFoo [entryB, entryA1]], faults := [],
              calls := [.get { Namespace := "default", Name := "foo-bar-com" },
                .update (ingressFoo [entryB, entryA1])] } svcA svcA1 =
          some (none, cli2) ∧
        readsOnly
          { objs := [ingressFoo [entryB, entryA1]], faults := [],
            calls := [.get { Namespace := "default", Name := "foo-bar-com" },
              .update (ingressFoo [entryB, entryA1])] } cli2 :=
  have hrun : UpdateFunc (storeOf [ingressFoo [entryA, entryB]]) svcA svcA1 =
      some (none,
        { objs := [ingressFoo [entryB, entryA1]], faults := [],
          calls := [.get { Namespace := "default", Name := "foo-bar-com" },
            .update (ingressFoo [entryB, entryA1])] }) := by decide
  ⟨hrun, redelivery_is_noop.2.1 (storeOf [ingressFoo [entryA, entryB]]) _ svcA svcA1
    (by decide) (by decide) rfl (by decide) rfl hrun rfl⟩


/-! ## The merge operations on arbitrary snapshots -/

theorem addPath_cases {s s1 : Ingress} {d : Service} (h : ingressAddPath s d = some s1) :
    (s.Spec.Rules = [] ∧ ∃ e, buildHTTPIngressPath d = some e ∧
        s1 = { s with Spec := { Rules :=
          [{ Host := getIngressHost d, HTTP := some { Paths := [e] } }] } }) ∨
      ∃ rule rest, s.Spec.Rules = rule :: rest ∧
        ((rule.Host ≠ getIngressHost d ∧ s1 = s) ∨
          (rule.Host = getIngressHost d ∧ ∃ http e, rule.HTTP = some http ∧
            buildHTTPIngressPath d = some e ∧
            ((∃ i, firstEntryAt d.Name http.Paths i = true ∧
                s1 = setFirstRulePaths s rule rest (http.Paths.set i e)) ∨
              (http.Paths.all (isOther d.Name) = true ∧
                s1 = setFirstRulePaths s rule rest (http.Paths ++ [e]))))) := by
  unfold ingressAddPath at h
  split at h
  · rename_i hr
    cases he : buildHTTPIngressPath d with
    | none => simp [buildIngressRuleValue, he] at h
    | some e =>
      simp only [buildIngressRuleValue, he, Option.map_some', Option.some.injEq] at h
      exact Or.inl ⟨hr, e, rfl, h.symm⟩
  · rename_i rule rest hr
    refine Or.inr ⟨rule, rest, hr, ?_⟩
    split at h
    · rename_i hh
      exact Or.inl ⟨hh, (Option.some.inj h).symm⟩
    · rename_i hh
      have hh2 : rule.Host = getIngressHost d := not_not.mp hh
      split at h
      · cases h
      · rename_i http hp
        cases he : buildHTTPIngressPath d with
        | none =>
          simp only [he, Option.map_none'] at h
          split at h <;> cases h
        | some e =>
          split at h
          · cases h
          · rename_i i hscan
            simp only [he, Option.map_some', Option.some.injEq] at h
            exact Or.inr ⟨hh2, http, e, hp, rfl,
              Or.inl ⟨i, firstEntryAt_of_scan _ _ hscan, h.symm⟩⟩
          · rename_i hscan
            simp only [he, Option.map_some', Option.some.injEq] at h
            exact Or.inr ⟨hh2, http, e, hp, rfl,
              Or.inr ⟨all_other_of_scan _ hscan, h.symm⟩⟩

theorem removePath_cases {s s1 : Ingress} {d : Service} (h : ingressRemovePath s d = some s1) :
    (s.Spec.Rules = [] ∧ s1 = s) ∨
      ∃ rule rest, s.Spec.Rules = rule :: rest ∧
        ((rule.Host ≠ getIngressHost d ∧ s1 = s) ∨
          (rule.Host = getIngressHost d ∧ ∃ http, rule.HTTP = some http ∧
            ((http.Paths.all (isOther d.Name) = true ∧ s1 = s) ∨
              ∃ i, firstEntryAt d.Name http.Paths i = true ∧
                s1 = if http.Paths.length = 1 then { s with Spec := { Rules := [] } }
                  else setFirstRulePaths s rule rest (http.Paths.eraseIdx i)))) := by
  cases hr : s.Spec.Rules with
  | nil =>
    rw [removePath_no_rule hr] at h
    exact Or.inl ⟨rfl, (Option.some.inj h).symm⟩
  | cons rule rest =>
    refine Or.inr ⟨rule, rest, rfl, ?_⟩
    by_cases hh : rule.Host = getIngressHost d
    · refine Or.inr ⟨hh, ?_⟩
      cases hp : rule.HTTP with
      | none => simp [ingressRemovePath, hr, hh, hp] at h
      | some http =>
        refine ⟨http, rfl, ?_⟩
        by_cases hl : http.Paths = []
        · rw [removePath_no_entry hr hp hl] at h
          exact Or.inl ⟨by simp [hl], (Option.some.inj h).symm⟩
        · have hlen : ¬ http.Paths.length = 0 := fun h0 => hl (List.length_eq_zero.mp h0)
          cases hscan : scanServiceName d.Name http.Paths with
          | none => simp [ingressRemovePath, hr, hh, hp, hlen, hscan] at h
          | some r =>
            cases r with
            | none =>
              have hab := all_other_of_scan _ hscan
              rw [removePath_absent hr hp hab] at h
              exact Or.inl ⟨hab, (Option.some.inj h).symm⟩
            | some i =>
              have hi := firstEntryAt_of_scan _ _ hscan
              rw [removePath_found hr hh hp hi] at h
              refine Or.inr ⟨i, hi, ?_⟩
              by_cases h1 : http.Paths.length = 1
              · rw [if_pos h1] at h ⊢
                exact (Option.some.inj h).symm
              · rw [if_neg h1] at h ⊢
                exact (Option.some.inj h).symm
    · rw [removePath_other_host hr hh] at h
      exact Or.inl ⟨hh, (Option.some.inj h).symm⟩

/-- C3 as stated fails: a rule carrying a path list can hold an entry without
service backend. For the validated source A and the object holding B's entry
followed by such an entry, the scan of `ingressAddPath` passes B's entry and
dereferences the nil `Service` pointer of the next one: there is no result
whose spec a second application could reproduce. -/
theorem ingressAddPath_idempotent_counterexample :
    validationSvc svcA = true ∧
      (ingressFoo [entryB, entryResource]).Spec.Rules =
        [{ Host := "foo.bar.com", HTTP := some { Paths := [entryB, entryResource] } }] ∧
      ingressAddPath (ingressFoo [entryB, entryResource]) svcA = none ∧
      ((ingressAddPath (ingressFoo [entryB, entryResource]) svcA).bind fun s1 =>
        ingressAddPath s1 svcA) = none := by
  decide

/-- C3 as amended: `ingressAddPath` is idempotent wherever it returns a result.
For every snapshot and every descriptor, if `ingressAddPath` returns an object
then applying it to that object with the same descriptor returns that same
object: the spec is unchanged, so no second entry for the source is added.
And `ingressAddPath` does return a result for every descriptor the validator
accepts and every snapshot in which each rule carries a path list whose
entries all route to a service. -/
theorem ingressAddPath_idempotent (s : Ingress) (d : Service) :
    (∀ s1, ingressAddPath s d = some s1 → ingressAddPath s1 d = some s1) ∧
      (validationSvc d = true → wellFormed s = true → ∃ s1, ingressAddPath s d = some s1) := by
  refine ⟨?_, fun hd hs => addPath_total hd hs⟩
  intro s1 h
  rcases addPath_cases h with ⟨_, e, he, rfl⟩ | ⟨rule, rest, hr, hcase⟩
  · have hi : firstEntryAt d.Name [e] 0 = true := by
      simp [firstEntryAt, isNamed_of_build he]
    rw [@addPath_found _ d { Host := getIngressHost d, HTTP := some { Paths := [e] } } []
      { Paths := [e] } 0 e rfl rfl rfl hi he]
    rfl
  · rcases hcase with ⟨hh, rfl⟩ | ⟨hh, http, e, hp, he, hsub⟩
    · exact addPath_other_host hr hh
    · have hn := isNamed_of_build he
      rcases hsub with ⟨i, hi, rfl⟩ | ⟨hab, rfl⟩
      · have hi2 := firstEntryAt_set hi hn
        rw [@addPath_found _ d { rule with HTTP := some { Paths := http.Paths.set i e } }
          rest { Paths := http.Paths.set i e } _ _ rfl hh rfl hi2 he]
        simp [setFirstRulePaths, List.set_set]
      · have hi2 := firstEntryAt_append hab hn
        rw [@addPath_found _ d { rule with HTTP := some { Paths := http.Paths ++ [e] } }
          rest { Paths := http.Paths ++ [e] } _ _ rfl hh rfl hi2 he]
        simp [setFirstRulePaths]

/-- Witness of C3 as amended: source A added twice to the object holding A's
entry followed by an entry without service backend; the scan stops at A's
entry, so both applications return. -/
theorem ingressAddPath_idempotent_witness :
    ingressAddPath (ingressFoo [entryA, entryResource]) svcA1 =
        some (ingressFoo [entryA1, entryResource]) ∧
      ingressAddPath (ingressFoo [entryA1, entryResource]) svcA1 =
        some (ingressFoo [entryA1, entryResource]) ∧
      ∃ s1, ingressAddPath (ingressFoo [entryA]) svcB = some s1 :=
  have h : ingressAddPath (ingressFoo [entryA, entryResource]) svcA1 =
      some (ingressFoo [entryA1, entryResource]) := by decide
  ⟨h, (ingressAddPath_idempotent (ingressFoo [entryA, entryResource]) svcA1).1 _ h,
    (ingressAddPath_idempotent (ingressFoo [entryA]) svcB).2 (by decide) (by decide)⟩

/-- C8 as stated fails: two snapshots in which no entry has the `backendName` of
source B, yet `ingressRemovePath` does not return the snapshot. In the first
the only entry has no service backend and the scan dereferences its nil
`Service` pointer; in the second the rule has the host of B but carries no
path list, and the length test dereferences the nil `HTTP` pointer. -/
theorem ingressRemovePath_noop_counterexample :
    ([entryResource].all fun p => !isNamed svcB.Name p) = true ∧
      ingressRemovePath (ingressFoo [entryResource]) svcB = none ∧
      ingressNoPaths.Spec.Rules = [{ Host := getIngressHost svcB, HTTP := none }] ∧
      ingressRemovePath ingressNoPaths svcB = none := by
  decide

/-- C8 as amended: `ingressRemovePath` is a no-op exactly outside the removal
case and outside a fault. For every snapshot and every descriptor, the result
is the snapshot itself if and only if the snapshot has no rule, or its first
rule has another host than the descriptor, or that rule carries a path list
which is empty, or that rule carries a path list all of whose entries route
to a service other than the source. -/
theorem ingressRemovePath_noop_iff (s : Ingress) (d : Service) :
    ingressRemovePath s d = some s ↔
      (s.Spec.Rules = [] ∨
        ∃ rule rest, s.Spec.Rules = rule :: rest ∧
          (rule.Host ≠ getIngressHost d ∨
            ∃ http, rule.HTTP = some http ∧
              (http.Paths = [] ∨ http.Paths.all (isOther d.Name) = true))) := by
  constructor
  · intro h
    rcases removePath_cases h with ⟨hr, _⟩ | ⟨rule, rest, hr, hcase⟩
    · exact Or.inl hr
    · refine Or.inr ⟨rule, rest, hr, ?_⟩
      rcases hcase with ⟨hh, _⟩ | ⟨hh, http, hp, hsub⟩
      · exact Or.inl hh
      · refine Or.inr ⟨http, hp, ?_⟩
        rcases hsub with ⟨hab, _⟩ | ⟨i, hi, hs⟩
        · exact Or.inr hab
        · exfalso
          have hlt := firstEntryAt_lt hi
          by_cases h1 : http.Paths.length = 1
          · rw [if_pos h1] at hs
            have := congrArg (fun x => x.Spec.Rules) hs
            simp [hr] at this
          · rw [if_neg h1] at hs
            have := congrArg (fun x => x.Spec.Rules) hs
            simp only [setFirstRulePaths, hr, List.cons.injEq, and_true] at this
            have h2 := congrArg (fun r => r.HTTP.map fun v => v.Paths.length) this
            simp [hp, List.length_eraseIdx_of_lt hlt] at h2
            omega
  · rintro (hr | ⟨rule, rest, hr, hh | ⟨http, hp, hl | hab⟩⟩)
    · exact removePath_no_rule hr
    · exact removePath_other_host hr hh
    · exact removePath_no_entry hr hp hl
    · exact removePath_absent hr hp hab

/-- Witness of C8 as amended: removing source B from the object that holds only
A's entry, and from an object of another host whose rule carries no path
list. -/
theorem ingressRemovePath_noop_iff_witness :
    ingressRemovePath (ingressFoo [entryA]) svcB = some (ingressFoo [entryA]) ∧
      ingressRemovePath ingressNoPaths svcDash = some ingressNoPaths :=
  ⟨(ingressRemovePath_noop_iff (ingressFoo [entryA]) svcB).mpr
      (Or.inr ⟨_, _, rfl, Or.inr ⟨_, rfl, Or.inr (by decide)⟩⟩),
    (ingressRemovePath_noop_iff ingressNoPaths svcDash).mpr
      (Or.inr ⟨_, _, rfl, Or.inl (by decide)⟩)⟩

/-! ## The invariant as the data model states it -/

theorem filterMap_names (ps : List HTTPIngressPath) :
    (ps.map backendName).filterMap id = ps.filterMap backendName := by
  rw [List.filterMap_map]
  rfl

theorem serviceNames_set {name : String} {ps : List HTTPIngressPath} {i : Nat}
    {e : HTTPIngressPath} (hi : firstEntryAt name ps i = true) (he : isNamed name e = true) :
    (ps.set i e).filterMap backendName = ps.filterMap backendName := by
  rw [← filterMap_names, ← filterMap_names, names_set hi he]

theorem mem_serviceNames_of_first {name : String} {ps : List HTTPIngressPath} {i : Nat}
    (hi : firstEntryAt name ps i = true) : name ∈ ps.filterMap backendName := by
  simp only [firstEntryAt, Bool.and_eq_true] at hi
  cases hp : ps[i]? with
  | none => simp [hp] at hi
  | some p =>
    simp only [hp] at hi
    exact List.mem_filterMap.mpr ⟨p, List.getElem?_mem hp, backendName_of_named hi.2⟩

theorem not_mem_serviceNames_of_all_other {name : String} {ps : List HTTPIngressPath}
    (h : ps.all (isOther name) = true) : name ∉ ps.filterMap backendName := by
  intro hm
  obtain ⟨p, hp, hpn⟩ := List.mem_filterMap.mp hm
  exact backendName_ne_of_other (List.all_eq_true.mp h p hp) hpn

theorem not_mem_serviceNames_eraseIdx {name : String} :
    ∀ (ps : List HTTPIngressPath) (i : Nat), (ps.filterMap backendName).Nodup →
      firstEntryAt name ps i = true → name ∉ (ps.eraseIdx i).filterMap backendName
  | [], i, _, h => by simp [firstEntryAt] at h
  | p :: ps, 0, hn, h => by
    simp only [firstEntryAt, List.take_zero, List.all_nil, Bool.true_and, List.length_cons,
      Nat.zero_lt_succ, List.getElem?_eq_getElem, List.getElem_cons_zero] at h
    rw [List.filterMap_cons_some (backendName_of_named h), List.nodup_cons] at hn
    exact hn.1
  | p :: ps, i + 1, hn, h => by
    simp only [firstEntryAt, List.take_succ_cons, List.all_cons, Bool.and_eq_true,
      List.getElem?_cons_succ] at h
    have hi : firstEntryAt name ps i = true := by
      simp only [firstEntryAt, Bool.and_eq_true]
      exact ⟨h.1.2, h.2⟩
    obtain ⟨sv, hsv, hne⟩ := isOther_service h.1.1
    have hb : backendName p = some sv.Name := by simp [backendName, hsv]
    rw [List.filterMap_cons_some hb, List.nodup_cons] at hn
    rw [List.eraseIdx_cons_succ, List.filterMap_cons_some hb]
    intro hm
    rcases List.mem_cons.mp hm with h1 | h1
    · exact hne h1.symm
    · exact not_mem_serviceNames_eraseIdx ps i hn.2 hi h1

theorem stated_no_rule {s : Ingress} (hr : s.Spec.Rules = []) : statedInvariant s = true := by
  simp [statedInvariant, serviceNames, hr]

theorem stated_one_rule {s : Ingress} {rule : IngressRule} {http : HTTPIngressRuleValue}
    (hr : s.Spec.Rules = [rule]) (hp : rule.HTTP = some http)
    (hn : (http.Paths.filterMap backendName).Nodup) : statedInvariant s = true := by
  simp only [statedInvariant, serviceNames, hr, hp, List.length_singleton, le_refl, decide_True,
    Bool.true_and, decide_eq_true_eq]
  exact hn

theorem stated_cons {s : Ingress} {rule : IngressRule} {rest : List IngressRule}
    {http : HTTPIngressRuleValue} (h : statedInvariant s = true)
    (hr : s.Spec.Rules = rule :: rest) (hp : rule.HTTP = some http) :
    rest = [] ∧ (http.Paths.filterMap backendName).Nodup := by
  simp only [statedInvariant, Bool.and_eq_true, decide_eq_true_eq] at h
  obtain ⟨hl, hn⟩ := h
  have hrest : rest = [] := by
    rw [hr] at hl
    cases rest with
    | nil => rfl
    | cons a b => simp at hl
  refine ⟨hrest, ?_⟩
  simpa [serviceNames, hr, hp] using hn

theorem addPath_stated {s s1 : Ingress} {d : Service} (hinv : statedInvariant s = true)
    (h : ingressAddPath s d = some s1) :
    statedInvariant s1 = true ∧
      ((∀ rule ∈ s.Spec.Rules, rule.Host = getIngressHost d) →
        (serviceNames s1).count d.Name = 1) := by
  rcases addPath_cases h with ⟨_, e, he, rfl⟩ | ⟨rule, rest, hr, hcase⟩
  · have hb := backendName_of_named (isNamed_of_build he)
    refine ⟨?_, ?_⟩
    · exact @stated_one_rule _ { Host := getIngressHost d, HTTP := some { Paths := [e] } }
        { Paths := [e] } rfl rfl (by simp [hb])
    · intro _
      simp [serviceNames, hb]
  · rcases hcase with ⟨hh, rfl⟩ | ⟨hh, http, e, hp, he, hsub⟩
    · refine ⟨hinv, ?_⟩
      intro hall
      exact absurd (hall rule (by simp [hr])) hh
    · have hn := isNamed_of_build he
      have hb := backendName_of_named hn
      obtain ⟨hrest, hnd⟩ := stated_cons hinv hr hp
      subst hrest
      rcases hsub with ⟨i, hi, rfl⟩ | ⟨hab, rfl⟩
      · have hnames := @serviceNames_set d.Name http.Paths i e hi hn
        refine ⟨?_, ?_⟩
        · refine @stated_one_rule _ { rule with HTTP := some { Paths := http.Paths.set i e } }
            { Paths := http.Paths.set i e } rfl rfl ?_
          rw [hnames]
          exact hnd
        · intro _
          simp only [serviceNames, setFirstRulePaths, hnames]
          exact count_one_of_nodup hnd (mem_serviceNames_of_first hi)
      · have hnm := not_mem_serviceNames_of_all_other hab
        refine ⟨?_, ?_⟩
        · refine @stated_one_rule _ { rule with HTTP := some { Paths := http.Paths ++ [e] } }
            { Paths := http.Paths ++ [e] } rfl rfl ?_
          rw [List.filterMap_append, List.filterMap_cons_some hb, List.filterMap_nil]
          refine List.Nodup.append hnd (List.nodup_singleton _) ?_
          intro x hx hx1
          rw [List.mem_singleton.mp hx1] at hx
          exact hnm hx
        · intro _
          simp only [serviceNames, setFirstRulePaths, List.filterMap_append,
            List.filterMap_cons_some hb, List.filterMap_nil, List.count_append,
            List.count_eq_zero_of_not_mem hnm, List.count_singleton_self]

theorem removePath_stated {s s2 : Ingress} {d : Service} (hinv : statedInvariant s = true)
    (h : ingressRemovePath s d = some s2) :
    statedInvariant s2 = true ∧
      ((∀ rule ∈ s.Spec.Rules, rule.Host = getIngressHost d) →
        (serviceNames s2).count d.Name = 0) := by
  rcases removePath_cases h with ⟨hr, rfl⟩ | ⟨rule, rest, hr, hcase⟩
  · refine ⟨hinv, ?_⟩
    intro _
    simp [serviceNames, hr]
  · rcases hcase with ⟨hh, rfl⟩ | ⟨hh, http, hp, hsub⟩
    · refine ⟨hinv, ?_⟩
      intro hall
      exact absurd (hall rule (by simp [hr])) hh
    · obtain ⟨hrest, hnd⟩ := stated_cons hinv hr hp
      subst hrest
      rcases hsub with ⟨hab, rfl⟩ | ⟨i, hi, rfl⟩
      · refine ⟨hinv, ?_⟩
        intro _
        simp only [serviceNames, hr, hp]
        exact List.count_eq_zero_of_not_mem (not_mem_serviceNames_of_all_other hab)
      · by_cases h1 : http.Paths.length = 1
        · rw [if_pos h1]
          refine ⟨stated_no_rule rfl, ?_⟩
          intro _
          simp [serviceNames]
        · rw [if_neg h1]
          refine ⟨?_, ?_⟩
          · refine @stated_one_rule _
              { rule with HTTP := some { Paths := http.Paths.eraseIdx i } }
              { Paths := http.Paths.eraseIdx i } rfl rfl ?_
            exact List.Nodup.sublist
              ((List.eraseIdx_sublist http.Paths i).filterMap backendName) hnd
          · intro _
            simp only [serviceNames, setFirstRulePaths]
            exact List.count_eq_zero_of_not_mem (not_mem_serviceNames_eraseIdx _ _ hnd hi)

/-- C18 as stated fails: the object holding A's entry followed by an entry
without service backend has one rule and pairwise distinct `backendName`
values, and source B is valid; yet the scan passes A's entry and dereferences
the nil `Service` pointer of the next one, so neither `ingressAddPath` nor
`ingressRemovePath` returns a snapshot that could satisfy the invariant. -/
theorem merge_invariant_counterexample :
    validationSvc svcB = true ∧ statedInvariant (ingressFoo [entryA, entryResource]) = true ∧
      ingressAddPath (ingressFoo [entryA, entryResource]) svcB = none ∧
      ingressRemovePath (ingressFoo [entryA, entryResource]) svcB = none := by
  decide

/-- C18 as amended: both merge operations preserve the invariant of the data
model wherever they return a result. For every snapshot with at most one rule
and pairwise distinct `backendName` values in its entry list and every
descriptor: a result of `ingressAddPath` again has at most one rule and
pairwise distinct `backendName` values, and so has a result of
`ingressRemovePath`; when the snapshot has no rule of another host than the
descriptor, a result of `ingressAddPath` holds exactly one entry of the
source and a result of `ingressRemovePath` holds none; and both operations
return a result when the validator accepts the descriptor and each rule of
the snapshot carries a path list whose entries all route to a service. -/
theorem merge_preserves_invariant (s : Ingress) (d : Service)
    (hinv : statedInvariant s = true) :
    (∀ s1, ingressAddPath s d = some s1 →
        statedInvariant s1 = true ∧
          ((∀ rule ∈ s.Spec.Rules, rule.Host = getIngressHost d) →
            (serviceNames s1).count d.Name = 1)) ∧
      (∀ s2, ingressRemovePath s d = some s2 →
        statedInvariant s2 = true ∧
          ((∀ rule ∈ s.Spec.Rules, rule.Host = getIngressHost d) →
            (serviceNames s2).count d.Name = 0)) ∧
      (validationSvc d = true → wellFormed s = true →
        (∃ s1, ingressAddPath s d = some s1) ∧ ∃ s2, ingressRemovePath s d = some s2) :=
  ⟨fun _ h => addPath_stated hinv h, fun _ h => removePath_stated hinv h,
    fun hd hs => ⟨addPath_total hd hs, removePath_total hs⟩⟩

/-- Witness of C18 as amended: source A with the path `apiv1` merged into and
removed from the object holding A's entry followed by an entry without
service backend; both operations return. -/
theorem merge_preserves_invariant_witness :
    statedInvariant (ingressFoo [entryA, entryResource]) = true ∧
      ingressAddPath (ingressFoo [entryA, entryResource]) svcA1 =
        some (ingressFoo [entryA1, entryResource]) ∧
      statedInvariant (ingressFoo [entryA1, entryResource]) = true ∧
      (serviceNames (ingressFoo [entryA1, entryResource])).count svcA1.Name = 1 ∧
      ingressRemovePath (ingressFoo [entryA, entryResource]) svcA1 =
        some (ingressFoo [entryResource]) ∧
      statedInvariant (ingressFoo [entryResource]) = true ∧
      (serviceNames (ingressFoo [entryResource])).count svcA1.Name = 0 :=
  have hinv : statedInvariant (ingressFoo [entryA, entryResource]) = true := by decide
  have hadd : ingressAddPath (ingressFoo [entryA, entryResource]) svcA1 =
      some (ingressFoo [entryA1, entryResource]) := by decide
  have hrem : ingressRemovePath (ingressFoo [entryA, entryResource]) svcA1 =
      some (ingressFoo [entryResource]) := by decide
  have h := merge_preserves_invariant (ingressFoo [entryA, entryResource]) svcA1 hinv
  have hall : ∀ rule ∈ (ingressFoo [entryA, entryResource]).Spec.Rules,
      rule.Host = getIngressHost svcA1 := by decide
  ⟨hinv, hadd, (h.1 _ hadd).1, (h.1 _ hadd).2 hall, hrem, (h.2.1 _ hrem).1,
    (h.2.1 _ hrem).2 hall⟩

/-- C13 as stated fails: the store holds one object with A's entry followed by
an entry without service backend, so it has one rule and pairwise distinct
`backendName` values. Deleting the validated source A succeeds with one
`Update` that leaves the entry without service backend; the same delete
delivered again reads that object, and the scan dereferences the nil
`Service` pointer: the second run does not succeed. -/
theorem redelivery_counterexample :
    validationSvc svcA = true ∧ statedInvariant (ingressFoo [entryA, entryResource]) = true ∧
      DeleteFunc (storeOf [ingressFoo [entryA, entryResource]]) svcA =
        some (none,
          { objs := [ingressFoo [entryResource]], faults := [],
            calls := [.get { Namespace := "default", Name := "foo-bar-com" },
              .update (ingressFoo [entryResource])] }) ∧
      DeleteFunc
          { objs := [ingressFoo [entryResource]], faults := [],
            calls := [.get { Namespace := "default", Name := "foo-bar-com" },
              .update (ingressFoo [entryResource])] } svcA = none := by
  decide

end GatewayExtension
